import Mathlib

/-!
Verification of the json-ls language server core.

A shallow embedding of the core data structures and algorithms of the
json-ls language server (a Rust implementation), together with theorems
checking the statements of its specification.

Embedded components:
* the JSON value model and the serde_json pointer operation;
* the schema navigator (`src/schema/navigator.rs`);
* the position classifier (`src/position.rs`);
* the document store (`src/document.rs`);
* the schema cache negative-cache logic (`src/schema/cache.rs`);
* the server configuration and backend initialization
  (`src/config.rs`, `src/backend.rs`);
* the completion handler (`src/completion.rs`).

Rust references `&Value` into a schema document are modelled by the address
(list of child indices) of the referenced subtree inside the document root;
this matches Rust pointer identity: two references are pointer-equal exactly
when their addresses agree.  Recursions that are unbounded in Rust carry an
explicit fuel argument; adequacy of the stated fuel is proved where a claim
depends on it.
-/

namespace JsonLs

/-- JSON values as in serde_json.  Numbers are modelled as integers: no
claim depends on the representation of numbers.  Objects are ordered
association lists; serde_json maps are key-ordered maps, and all lookups
below are by key, so only iteration order of `patternProperties` and of
`properties` key listings can differ, which no claim depends on. -/
inductive Json where
  | null : Json
  | bool : Bool → Json
  | num : Int → Json
  | str : String → Json
  | arr : List Json → Json
  | obj : List (String × Json) → Json

/-- serde_json `Value::get` with a string key: field lookup on objects,
`None` on every other variant. -/
def Json.getKey : Json → String → Option Json
  | .obj fs, k => (fs.find? (fun p => p.1 == k)).map (·.2)
  | _, _ => none

/-- serde_json `Value::is_object`. -/
def Json.isObj : Json → Bool
  | .obj _ => true
  | _ => false

/-- serde_json `Value::as_str`. -/
def Json.asStr : Json → Option String
  | .str s => some s
  | _ => none

/-- serde_json `Value::as_array`. -/
def Json.asArr : Json → Option (List Json)
  | .arr xs => some xs
  | _ => none

/-- The i-th child of a JSON node: object fields and array elements in
order.  Scalar nodes have no children. -/
def Json.child : Json → Nat → Option Json
  | .obj fs, i => (fs.get? i).map (·.2)
  | .arr xs, i => xs.get? i
  | _, _ => none

/-- Address of a subtree inside a document: the list of child indices from
the root.  Stands for the Rust `&Value` reference (pointer identity). -/
abbrev Addr := List Nat

/-- Subtree of a document at an address. -/
def Json.atAddr : Json → Addr → Option Json
  | j, [] => some j
  | j, i :: rest => (j.child i).bind (Json.atAddr · rest)

/-- Index of the first field with the given key in an object field list. -/
def fieldIdx (fs : List (String × Json)) (k : String) : Option Nat :=
  fs.findIdx? (fun p => p.1 == k)

/-- Index of a key among the children of a node (objects only). -/
def Json.keyIdx : Json → String → Option Nat
  | .obj fs, k => fieldIdx fs k
  | _, _ => none

mutual
/-- All valid subtree addresses of a document. -/
def validAddrs : Json → List Addr
  | .obj fs => [] :: validAddrsFields fs 0
  | .arr xs => [] :: validAddrsElems xs 0
  | _ => [[]]
def validAddrsFields : List (String × Json) → Nat → List Addr
  | [], _ => []
  | (_, v) :: rest, i => (validAddrs v).map (i :: ·) ++ validAddrsFields rest (i + 1)
def validAddrsElems : List Json → Nat → List Addr
  | [], _ => []
  | v :: rest, i => (validAddrs v).map (i :: ·) ++ validAddrsElems rest (i + 1)
end

/-- Boolean test used by `strStartsWith` and friends; the Rust string
helpers below are reimplemented on character lists so that all of them
compute by kernel reduction. -/
def strStartsWith (s pre : String) : Bool :=
  pre.data.isPrefixOf s.data

/-- Drop the first character of a string (used for `strip_prefix` of a
single ASCII character). -/
def strDropOne (s : String) : String :=
  String.mk (s.data.drop 1)

/-- Split a character list at a separator character, like Rust
`str::split`: `"/a/b"` yields `["", "a", "b"]`. -/
def splitOnChar (sep : Char) : List Char → List (List Char)
  | [] => [[]]
  | c :: rest =>
    match splitOnChar sep rest with
    | h :: t => if c = sep then [] :: h :: t else (c :: h) :: t
    | [] => [[c]]

/-- Replace every occurrence of `~1` by `/` (first pass of the JSON
Pointer token unescape in serde_json `Value::pointer`). -/
def unescTilde1 : List Char → List Char
  | '~' :: '1' :: rest => '/' :: unescTilde1 rest
  | c :: rest => c :: unescTilde1 rest
  | [] => []

/-- Replace every occurrence of `~0` by `~` (second pass of the JSON
Pointer token unescape). -/
def unescTilde0 : List Char → List Char
  | '~' :: '0' :: rest => '~' :: unescTilde0 rest
  | c :: rest => c :: unescTilde0 rest
  | [] => []

/-- JSON Pointer token unescape: `.replace("~1", "/").replace("~0", "~")`. -/
def unescapeToken (cs : List Char) : String :=
  String.mk (unescTilde0 (unescTilde1 cs))

/-- Digits-only string to number, as `str::parse::<usize>` restricted by
`parse_index` (no sign, overflow not modelled). -/
def digitsToNat : List Char → Option Nat
  | [] => none
  | cs => go cs 0
where
  go : List Char → Nat → Option Nat
    | [], acc => some acc
    | c :: rest, acc =>
      if '0' ≤ c ∧ c ≤ '9' then go rest (acc * 10 + (c.toNat - 48)) else none

/-- serde_json `parse_index`: array index token, rejecting a leading `+`
and leading zeros. -/
def parseIndex (t : String) : Option Nat :=
  if strStartsWith t "+" then none
  else if strStartsWith t "0" ∧ t.data.length ≠ 1 then none
  else digitsToNat t.data

/-- Token walk of serde_json `Value::pointer`, returning the address of
the target instead of a reference. -/
def Json.pointerGo : Json → List String → Option Addr
  | _, [] => some []
  | j, t :: ts =>
    match j with
    | .obj fs =>
      match fieldIdx fs t with
      | some i =>
        ((fs.get? i).map (·.2)).bind
          (fun c => (Json.pointerGo c ts).map (i :: ·))
      | none => none
    | .arr xs =>
      match parseIndex t with
      | some i => (xs.get? i).bind (fun c => (Json.pointerGo c ts).map (i :: ·))
      | none => none
    | _ => none

/-- serde_json `Value::pointer`, returning the address of the target. -/
def Json.pointerAddr (root : Json) (ptr : String) : Option Addr :=
  if ptr.data = [] then some []
  else if ¬ strStartsWith ptr "/" then none
  else
    Json.pointerGo root (((splitOnChar '/' ptr.data).drop 1).map unescapeToken)

/-- A segment in a JSON path (`PathSegment` in position.rs). -/
inductive PathSegment where
  | key : String → PathSegment
  | idx : Nat → PathSegment
deriving DecidableEq, Repr

/-- Rust `regex_lite_match` from navigator.rs: anchored-leading-caret test
or literal substring containment. -/
def regexLiteMatch (pattern value : String) : Bool :=
  if strStartsWith pattern "^" then
    (pattern.data.dropWhile (· = '^')).isPrefixOf value.data
  else
    containsSub value.data pattern.data
where
  /-- Rust `str::contains` with a literal pattern. -/
  containsSub : List Char → List Char → Bool
    | hay, needle =>
      match hay with
      | [] => needle.isEmpty
      | _ :: t => needle.isPrefixOf hay || containsSub t needle

/-- Rust `try_navigate_segment` from navigator.rs, on the (already
resolved) node `j`; returns the address of the selected child relative to
`j`. -/
def tryNavigateSegment (j : Json) (seg : PathSegment) : Option Addr :=
  match seg with
  | .key k =>
    -- properties
    match (do
      let pi ← j.keyIdx "properties"
      let props ← j.child pi
      let ki ← props.keyIdx k
      pure [pi, ki] : Option Addr) with
    | some a => some a
    | none =>
      -- patternProperties: first pattern that matches
      match (do
        let pi ← j.keyIdx "patternProperties"
        let pp ← j.child pi
        match pp with
        | .obj fs =>
          match fs.findIdx? (fun p => regexLiteMatch p.1 k) with
          | some i => pure [pi, i]
          | none => none
        | _ => none : Option Addr) with
      | some a => some a
      | none =>
        -- additionalProperties, when it is an object subschema
        match (do
          let ai ← j.keyIdx "additionalProperties"
          let ap ← j.child ai
          if ap.isObj then pure [ai] else none : Option Addr) with
        | some a => some a
        | none => none
  | .idx i =>
    match (do
      let ii ← j.keyIdx "items"
      let items ← j.child ii
      if items.isObj || (items.getKey "$ref").isSome then
        pure [ii]
      else
        match items.asArr with
        | some xs => if i < xs.length then pure [ii, i] else none
        | none => none : Option Addr) with
    | some a => some a
    | none =>
      match (do
        let pi ← j.keyIdx "prefixItems"
        let xs ← (j.child pi).bind Json.asArr
        if i < xs.length then pure [pi, i] else none : Option Addr) with
      | some a => some a
      | none => none

/-- Rust `resolve_ref` from navigator.rs.  Faithfully to the source, the
cycle guard tests and inserts the identity of `root` (address `[]`), not
the identity of the resolved target.  Returns the optional resolved
address together with the updated visited set. -/
def resolveRef (root : Json) (j : Json) (visited : List Addr) :
    Option Addr × List Addr :=
  match (j.getKey "$ref").bind Json.asStr with
  | none => (none, visited)
  | some s =>
    if strStartsWith s "#" then
      if ([] : Addr) ∈ visited then (none, visited)
      else (root.pointerAddr (strDropOne s), ([] : Addr) :: visited)
    else (none, visited)

/-- Addresses of the sub-schemas of the array at combinator key `key` of
node `j` (located at `addr`). -/
def combKeySubAddrs (j : Json) (addr : Addr) (key : String) : List Addr :=
  match j.keyIdx key with
  | some ki =>
    match (j.child ki).bind Json.asArr with
    | some xs => (List.range xs.length).map (fun i => addr ++ [ki, i])
    | none => []
  | none => []

/-- The `allOf`, `anyOf`, `oneOf` sub-schema addresses of node `j` at
`addr`, in dispatch order. -/
def combSubAddrs (j : Json) (addr : Addr) : List Addr :=
  combKeySubAddrs j addr "allOf" ++ combKeySubAddrs j addr "anyOf" ++
    combKeySubAddrs j addr "oneOf"

mutual
/-- Rust `navigate_inner` from navigator.rs, over addresses into `root`.
The Rust recursion carries no fuel; `navigator_terminates` (claim C7)
shows the fuel stated in `navFuelBound` is never exhausted, so `.error`
never occurs there.  Result: the address of the found node (or `none` for
Rust `None`) together with the final visited set (the Rust visited set is
passed by mutable reference and threaded through sibling calls). -/
def navigateInner (root : Json) :
    Nat → Addr → List PathSegment → List Addr →
    Except Unit (Option Addr × List Addr)
  | 0, _, _, _ => .error ()
  | fuel + 1, addr, path, visited =>
    -- cycle guard on the identity of the current subtree
    if addr ∈ visited then .ok (none, visited)
    else
      let v1 := addr :: visited
      match root.atAddr addr with
      | none => .ok (none, v1)  -- unreachable: navigation stays inside root
      | some j =>
        let rv := resolveRef root j v1
        let addr2 := rv.1.getD addr
        match root.atAddr addr2 with
        | none => .ok (none, rv.2)  -- unreachable: resolved targets lie in root
        | some j2 =>
          match path with
          | [] => .ok (some addr2, rv.2)
          | seg :: rest =>
            match tryNavigateSegment j2 seg with
            | some rel => navigateInner root fuel (addr2 ++ rel) rest rv.2
            | none =>
              navigateCombs root fuel (combSubAddrs j2 addr2) path rv.2

/-- The combinator fan-out loop of `navigate_inner`: try each `allOf`,
`anyOf`, `oneOf` sub-schema with the whole remaining path; first success
wins; the visited set threads through failed branches. -/
def navigateCombs (root : Json) :
    Nat → List Addr → List PathSegment → List Addr →
    Except Unit (Option Addr × List Addr)
  | 0, _, _, _ => .error ()
  | _ + 1, [], _, visited => .ok (none, visited)
  | fuel + 1, a :: rest, path, visited =>
    match navigateInner root fuel a path visited with
    | .error e => .error e
    | .ok (some r, v) => .ok (some r, v)
    | .ok (none, v) => navigateCombs root fuel rest path v
end

mutual
/-- Total number of nodes of a JSON document. -/
def sizeNodes : Json → Nat
  | .obj fs => 1 + sizeFields fs
  | .arr xs => 1 + sizeElems xs
  | _ => 1
def sizeFields : List (String × Json) → Nat
  | [] => 0
  | (_, v) :: rest => sizeNodes v + sizeFields rest
def sizeElems : List Json → Nat
  | [] => 0
  | v :: rest => sizeNodes v + sizeElems rest
end

/-- Fuel for `navigateInner` proved sufficient by the claim C7 theorem. -/
def navFuelBound (root : Json) (path : List PathSegment) : Nat :=
  let v := (validAddrs root).length
  let s := sizeNodes root
  let p := path.length
  (v + 1) * (3 * s + p + 2) + p + 2

/-- Rust `SchemaNode::navigate` on the node `(root.atAddr addr, root)`:
fresh visited set per call. -/
def navigateFrom (root : Json) (addr : Addr) (path : List PathSegment) :
    Option Addr :=
  match navigateInner root (navFuelBound root path) addr path [] with
  | .ok (r, _) => r
  | .error _ => none

/-- Rust `SchemaNode::navigate` on the root node `(root, root)`. -/
def navigate (root : Json) (path : List PathSegment) : Option Addr :=
  navigateFrom root [] path

/-- Number of valid addresses of `root` not yet in the visited set:
the termination measure component for `navigateInner`. -/
def unvisitedCount (root : Json) (vis : List Addr) : Nat :=
  (validAddrs root).countP (fun a => decide (a ∉ vis))

/-- Termination measure for `navigateInner`: dominated by the fuel stated
in `navFuelBound`. -/
def innerMeasure (root : Json) (path : List PathSegment) (vis : List Addr) : Nat :=
  unvisitedCount root vis * (3 * sizeNodes root + path.length + 2) +
    path.length + 1

/-- A root schema in which `properties.k` is a local `$ref` to
`/definitions/T`, whose target has `properties.m` (the schema named in
claim C1). -/
def refSchema : Json :=
  .obj [("properties", .obj [("k", .obj [("$ref", .str "#/definitions/T")])]),
        ("definitions", .obj [("T",
          .obj [("properties", .obj [("m", .obj [("type", .str "string")])])])])]

/-- A root schema whose `properties.a` carries both a `$ref` to
`/definitions/D` and inline `properties.b` (used by claim C6). -/
def compSchema : Json :=
  .obj [("properties", .obj [("a",
          .obj [("$ref", .str "#/definitions/D"),
                ("properties", .obj [("b", .obj [("type", .str "integer")])])])]),
        ("definitions", .obj [("D",
          .obj [("properties", .obj [("b", .obj [("type", .str "string")])])])])]

/-- UTF-8 encoding of a character (1 to 4 bytes). -/
def charUtf8 (c : Char) : List Nat :=
  let n := c.toNat
  if n < 0x80 then [n]
  else if n < 0x800 then [0xC0 + n / 0x40, 0x80 + n % 0x40]
  else if n < 0x10000 then
    [0xE0 + n / 0x1000, 0x80 + (n / 0x40) % 0x40, 0x80 + n % 0x40]
  else
    [0xF0 + n / 0x40000, 0x80 + (n / 0x1000) % 0x40,
     0x80 + (n / 0x40) % 0x40, 0x80 + n % 0x40]

/-- The UTF-8 byte sequence of a string (Rust `str::as_bytes`). -/
def strBytes (s : String) : List Nat :=
  s.data.flatMap charUtf8

/-- Rust `char::len_utf8`. -/
def utf8Len (c : Char) : Nat := (charUtf8 c).length

/-- Rust `char::len_utf16`. -/
def utf16Len (c : Char) : Nat := if c.toNat < 0x10000 then 1 else 2

/-- Outcome of the line-locating loop of `lsp_position_to_byte_offset`
(position.rs): the loop either breaks at the byte offset of the start of
the requested line, ends with the final line counter, or returns early. -/
inductive LineScanResult where
  | broke : Nat → LineScanResult
  | ended : Nat → LineScanResult
  | abort : LineScanResult
deriving DecidableEq, Repr

/-- The `char_indices` loop of `lsp_position_to_byte_offset`. -/
def lineScan : List Char → Nat → Nat → Nat → LineScanResult
  | [], _, currentLine, _ => .ended currentLine
  | c :: rest, off, currentLine, line =>
    if currentLine = line then .broke off
    else
      let cl := if c = '\n' then currentLine + 1 else currentLine
      if line < cl then .abort
      else lineScan rest (off + utf8Len c) cl line

/-- Drop the characters of the first `n` bytes (`n` at a character
boundary): the slice `&text[n..]` as a character list. -/
def dropBytes : List Char → Nat → List Char
  | cs, 0 => cs
  | [], _ => []
  | c :: rest, n => dropBytes rest (n - utf8Len c)

/-- The UTF-16 walk of `lsp_position_to_byte_offset`: byte offset within
the line of the first position at or beyond the UTF-16 column. -/
def utf16ToByteAux : List Char → Nat → Nat → Nat → Nat
  | [], byteOff, _, _ => byteOff
  | c :: rest, byteOff, count, character =>
    if character ≤ count then byteOff
    else utf16ToByteAux rest (byteOff + utf8Len c) (count + utf16Len c) character

/-- Rust `lsp_position_to_byte_offset` from position.rs. -/
def lspPositionToByteOffset (text : String) (line char : Nat) : Option Nat :=
  match lineScan text.data 0 0 line with
  | .abort => none
  | .broke ls => some (ls + utf16ToByteAux (dropBytes text.data ls) 0 0 char)
  | .ended cl =>
    if cl = line then some (utf16ToByteAux text.data 0 0 char)
    else if cl + 1 = line ∧ text.data ≠ [] then
      some ((strBytes text).length + utf16ToByteAux [] 0 0 char)
    else none

/-- JSON whitespace bytes accepted by `skip_whitespace` (position.rs). -/
def isWsByte (b : Nat) : Bool :=
  b = 32 || b = 9 || b = 13 || b = 10

/-- Terminator bytes of `skip_literal` (position.rs). -/
def isLitTerm (b : Nat) : Bool :=
  b = 44 || b = 125 || b = 93 || isWsByte b

/-- The loop of `skip_whitespace`, over the byte suffix at `pos`. -/
def skipWsAux : List Nat → Nat → Nat
  | [], pos => pos
  | b :: rest, pos => if isWsByte b then skipWsAux rest (pos + 1) else pos

/-- Rust `skip_whitespace` from position.rs. -/
def skipWs (bs : List Nat) (pos : Nat) : Nat :=
  skipWsAux (bs.drop pos) pos

/-- The loop of `skip_literal`, over the byte suffix at `pos`. -/
def skipLiteralAux : List Nat → Nat → Nat
  | [], pos => pos
  | b :: rest, pos => if isLitTerm b then pos else skipLiteralAux rest (pos + 1)

/-- Rust `skip_literal` from position.rs. -/
def skipLiteral (bs : List Nat) (pos : Nat) : Nat :=
  skipLiteralAux (bs.drop pos) pos

/-- Decoded character of a simple escape in `scan_string` (position.rs);
any other byte is pushed as `other as char`. -/
def escChar (e : Nat) : Char :=
  if e = 34 then '"'
  else if e = 92 then '\\'
  else if e = 47 then '/'
  else if e = 110 then '\n'
  else if e = 114 then '\r'
  else if e = 116 then '\t'
  else Char.ofNat e

/-- The main loop of `scan_string` (position.rs), over the byte suffix
after the opening quote.  On `\u` the scanner pushes a placeholder and
skips the `u` plus up to three further bytes (the fourth hex digit, when
present, is consumed as an ordinary character on the next iteration,
faithfully to the source). -/
def scanStringAux : List Nat → Nat → List Char → List Char × Nat
  | [], pos, acc => (acc, pos)
  | b :: rest, pos, acc =>
    if b = 34 then (acc, pos + 1)
    else if b = 92 then
      match rest with
      | [] => (acc, pos + 1)
      | e :: rest2 =>
        if e = 117 then
          match rest2 with
          | _ :: _ :: _ :: r => scanStringAux r (pos + 5) (acc ++ ['?'])
          | _ :: _ :: [] => (acc ++ ['?'], pos + 4)
          | _ :: [] => (acc ++ ['?'], pos + 3)
          | [] => (acc ++ ['?'], pos + 2)
        else scanStringAux rest2 (pos + 2) (acc ++ [escChar e])
    else scanStringAux rest (pos + 1) (acc ++ [Char.ofNat b])

/-- Rust `scan_string` from position.rs: consume a JSON string including
quotes, returning the decoded content and the new position. -/
def scanString (bs : List Nat) (pos : Nat) : List Char × Nat :=
  match bs.drop pos with
  | b :: rest => if b = 34 then scanStringAux rest (pos + 1) [] else ([], pos)
  | [] => ([], pos)

/-- The non-`Unknown` position contexts of position.rs
(`PositionContext`); `Unknown` is modelled as `none` at use sites. -/
inductive PosCtx where
  | key : List PathSegment → PosCtx
  | keyStart : List PathSegment → PosCtx
  | value : List PathSegment → PosCtx
  | valueStart : List PathSegment → PosCtx
deriving DecidableEq, Repr

mutual
/-- The loop body of Rust `scan_object` (position.rs).  `scan_object`
itself is `scanObjLoop` applied after consuming the opening brace.  Fuel
is decremented on every recursive step; on the inputs appearing in
theorems the stated fuel is ample (the Rust loops are unbounded, and
indeed do not terminate on some malformed inputs). -/
def scanObjLoop (bs : List Nat) :
    Nat → Nat → List PathSegment → Nat → Except Unit (Option PosCtx × Nat)
  | 0, _, _, _ => .error ()
  | fuel + 1, pos, path, target =>
    let p := skipWs bs pos
    match bs.get? p with
    | none => .ok (none, p)
    | some ch =>
      if ch = 125 then .ok (none, p + 1)
      else if ch = 44 then scanObjLoop bs fuel (p + 1) path target
      else if ch = 34 then
        if target = p then .ok (some (.keyStart path), p)
        else
          let ks := scanString bs p
          let k := String.mk ks.1
          let p1 := ks.2
          if p < target ∧ target ≤ p1 then
            .ok (some (.key (path ++ [.key k])), p1)
          else
            let p2 := skipWs bs p1
            match bs.get? p2 with
            | none => .ok (none, p2)
            | some c2 =>
              let p3 := if c2 = 58 then p2 + 1 else p2
              let p4 := skipWs bs p3
              if p4 < bs.length then
                if p < target ∧ target ≤ p4 then
                  .ok (some (.valueStart (path ++ [.key k])), p4)
                else
                  match scanValue bs fuel p4 (path ++ [.key k]) target with
                  | .error e => .error e
                  | .ok (some r, p5) => .ok (some r, p5)
                  | .ok (none, p5) => scanObjLoop bs fuel p5 path target
              else .ok (none, p4)
      else scanObjLoop bs fuel (p + 1) path target
  termination_by structural fuel => fuel

/-- The loop body of Rust `scan_array` (position.rs); `scan_array` is
`scanArrLoop` applied after consuming the opening bracket, with index 0. -/
def scanArrLoop (bs : List Nat) :
    Nat → Nat → Nat → List PathSegment → Nat → Except Unit (Option PosCtx × Nat)
  | 0, _, _, _, _ => .error ()
  | fuel + 1, pos, index, path, target =>
    let p := skipWs bs pos
    match bs.get? p with
    | none => .ok (none, p)
    | some ch =>
      if ch = 93 then .ok (none, p + 1)
      else if ch = 44 then scanArrLoop bs fuel (p + 1) (index + 1) path target
      else if target = p then
        .ok (some (.valueStart (path ++ [.idx index])), p)
      else
        match scanValue bs fuel p (path ++ [.idx index]) target with
        | .error e => .error e
        | .ok (some r, p2) => .ok (some r, p2)
        | .ok (none, p2) => scanArrLoop bs fuel p2 index path target
  termination_by structural fuel => fuel

/-- Rust `scan_value` from position.rs. -/
def scanValue (bs : List Nat) :
    Nat → Nat → List PathSegment → Nat → Except Unit (Option PosCtx × Nat)
  | 0, _, _, _ => .error ()
  | fuel + 1, pos, path, target =>
    match bs.get? pos with
    | none => .ok (none, pos)
    | some ch =>
      if ch = 123 then
        if target = pos then .ok (some (.valueStart path), pos)
        else scanObjLoop bs fuel (pos + 1) path target
      else if ch = 91 then
        if target = pos then .ok (some (.valueStart path), pos)
        else scanArrLoop bs fuel (pos + 1) 0 path target
      else if ch = 34 then
        let sp := scanString bs pos
        if pos ≤ target ∧ target ≤ sp.2 then .ok (some (.value path), sp.2)
        else .ok (none, sp.2)
      else
        let lend := skipLiteral bs pos
        if pos ≤ target ∧ target ≤ lend then .ok (some (.value path), lend)
        else .ok (none, lend)
  termination_by structural fuel => fuel
end

/-- Fuel used by `position_to_context`; ample for every terminating scan
(each fuel unit either consumes at least one byte or descends into a
nested value, of which there are at most as many as bytes). -/
def scanFuel (bs : List Nat) : Nat := 2 * bs.length + 8

/-- Rust `position_to_context` from position.rs.  `.ok none` is the
`Unknown` context; `.error` marks fuel exhaustion (which on such inputs
means the Rust scanner does not terminate) and never occurs in the
theorems below. -/
def positionToContext (text : String) (line char : Nat) :
    Except Unit (Option PosCtx) :=
  match lspPositionToByteOffset text line char with
  | none => .ok none
  | some target =>
    let bs := strBytes text
    let p := skipWs bs 0
    match bs.get? p with
    | some b =>
      if b = 123 then
        match scanObjLoop bs (scanFuel bs) (p + 1) [] target with
        | .ok (res, _) => .ok res
        | .error e => .error e
      else .ok none
    | none => .ok none

/-- Rust `SchemaNode::resolved` (navigator.rs): resolve a `$ref` on the
current node with a fresh visited set, falling back to the node itself. -/
def resolvedAddr (root : Json) (addr : Addr) : Addr :=
  match root.atAddr addr with
  | some j => ((resolveRef root j []).1).getD addr
  | none => addr

/-- Lowercase hexadecimal digit. -/
def hexDigitChar (n : Nat) : Char :=
  Char.ofNat (if n < 10 then 48 + n else 87 + n)

/-- serde_json string escaping for `to_string`: quote, backslash and the
short control escapes; other control characters as `\u00XX`. -/
def escJsonChar (c : Char) : List Char :=
  let n := c.toNat
  if n = 34 then ['\\', '"']
  else if n = 92 then ['\\', '\\']
  else if n = 8 then ['\\', 'b']
  else if n = 12 then ['\\', 'f']
  else if n = 10 then ['\\', 'n']
  else if n = 13 then ['\\', 'r']
  else if n = 9 then ['\\', 't']
  else if n < 32 then ['\\', 'u', '0', '0', hexDigitChar (n / 16), hexDigitChar (n % 16)]
  else [c]

/-- serde_json rendering of a string value. -/
def renderStr (s : String) : String :=
  String.mk ('"' :: (s.data.flatMap escJsonChar ++ ['"']))

mutual
/-- serde_json `Value::to_string` (compact rendering). -/
def renderJson : Json → String
  | .null => "null"
  | .bool b => if b then "true" else "false"
  | .num n => toString n
  | .str s => renderStr s
  | .arr xs => "[" ++ renderElemsStr xs ++ "]"
  | .obj fs => "\x7b" ++ renderFieldsStr fs ++ "\x7d"
def renderFieldsStr : List (String × Json) → String
  | [] => ""
  | [(k, v)] => renderStr k ++ ":" ++ renderJson v
  | (k, v) :: rest => renderStr k ++ ":" ++ renderJson v ++ "," ++ renderFieldsStr rest
def renderElemsStr : List Json → String
  | [] => ""
  | [v] => renderJson v
  | v :: rest => renderJson v ++ "," ++ renderElemsStr rest
end

/-- Hover data extracted from a schema node (`HoverInfo`, navigator.rs). -/
structure HoverInfo where
  description : Option String
  typeInfo : Option String
  defaultVal : Option String
  examples : List String
  enumValues : List String
deriving DecidableEq, Repr

/-- Rendering of one `enum` element (navigator.rs): strings are wrapped in
plain quotes without escaping, everything else uses its JSON text. -/
def renderEnumElem : Json → String
  | .str s => "\"" ++ s ++ "\""
  | other => renderJson other

/-- Rust `extract_hover_info` from navigator.rs. -/
def extractHoverInfo (j : Json) : HoverInfo :=
  { description :=
      ((j.getKey "description").bind Json.asStr).orElse
        (fun _ => (j.getKey "title").bind Json.asStr)
    typeInfo :=
      match j.getKey "type" with
      | some (.str s) => some s
      | some (.arr xs) =>
        let types := xs.filterMap Json.asStr
        if types.isEmpty then none else some (String.intercalate " | " types)
      | _ => none
    defaultVal := (j.getKey "default").map renderJson
    examples :=
      ((j.getKey "examples").bind Json.asArr).map (List.map renderJson) |>.getD []
    enumValues :=
      ((j.getKey "enum").bind Json.asArr).map (List.map renderEnumElem) |>.getD [] }

/-- Rust `SchemaNode::hover_info`: extract from the resolved node. -/
def hoverInfoAt (root : Json) (addr : Addr) : HoverInfo :=
  match root.atAddr (resolvedAddr root addr) with
  | some j => extractHoverInfo j
  | none => ⟨none, none, none, [], []⟩

/-- Rust `SchemaNode::enum_values`: enum renderings of the resolved node. -/
def enumValuesAt (root : Json) (addr : Addr) : List String :=
  match root.atAddr (resolvedAddr root addr) with
  | some j => ((j.getKey "enum").bind Json.asArr).map (List.map renderEnumElem) |>.getD []
  | none => []

/-- Rust `SchemaNode::schema_type`: the `type` string of the resolved node. -/
def schemaTypeAt (root : Json) (addr : Addr) : Option String :=
  match root.atAddr (resolvedAddr root addr) with
  | some j => (j.getKey "type").bind Json.asStr
  | none => none

/-- Byte-lexicographic string comparison (the Rust `String` order);
codepoint-lexicographic comparison coincides with it on UTF-8. -/
def charListLe : List Char → List Char → Bool
  | [], _ => true
  | _ :: _, [] => false
  | a :: as, b :: bs =>
    if a.toNat < b.toNat then true
    else if b.toNat < a.toNat then false
    else charListLe as bs

/-- Stable insertion into a sorted list. -/
def insertSorted (x : String) : List String → List String
  | [] => [x]
  | y :: t => if charListLe x.data y.data then x :: y :: t else y :: insertSorted x t

/-- `Vec::sort` on strings. -/
def sortStrings : List String → List String
  | [] => []
  | x :: t => insertSorted x (sortStrings t)

/-- `Vec::dedup`: remove consecutive duplicates. -/
def dedupAdj : List String → List String
  | [] => []
  | a :: t => a :: dedupAdjGo a t
where
  dedupAdjGo (prev : String) : List String → List String
    | [] => []
    | b :: t => if prev = b then dedupAdjGo prev t else b :: dedupAdjGo b t

mutual
/-- Rust `SchemaNode::property_names` (navigator.rs): keys of
`properties` of the resolved node plus the names reachable through
`allOf`, `anyOf`, `oneOf`, sorted and deduplicated.  The Rust recursion is
unbounded (it loops forever on cyclic combinator refs); the fuel here is
instrumentation, ample on the inputs appearing in theorems. -/
def propertyNamesFuel (root : Json) : Nat → Addr → List String
  | 0, _ => []
  | fuel + 1, addr =>
    let r := resolvedAddr root addr
    match root.atAddr r with
    | none => []
    | some j =>
      let base :=
        match j.getKey "properties" with
        | some (.obj fs) => fs.map (·.1)
        | _ => []
      dedupAdj (sortStrings (base ++ propNamesList root fuel (combSubAddrs j r)))
  termination_by structural fuel => fuel
/-- The combinator traversal of `property_names`. -/
def propNamesList (root : Json) : Nat → List Addr → List String
  | 0, _ => []
  | _ + 1, [] => []
  | fuel + 1, a :: rest =>
    propertyNamesFuel root fuel a ++ propNamesList root fuel rest
  termination_by structural fuel => fuel
end

/-- Fuel for `property_names`; ample for acyclic schemas. -/
def pnFuel (root : Json) : Nat := (validAddrs root).length + 1

/-- LSP completion item as populated by completion.rs (kind 5 = Field,
kind 12 = Value; insert text format 1 = PlainText, 2 = Snippet). -/
structure CompletionItem where
  label : String
  kind : Nat
  detail : Option String
  documentation : Option String
  insertText : Option String
  insertTextFormat : Nat
deriving DecidableEq, Repr

/-- Rust `property_completions_from_names` from completion.rs. -/
def propertyCompletionsFromNames (root : Json) (nodeAddr : Addr)
    (names : List String) (includeLeadingQuote : Bool) : List CompletionItem :=
  names.map (fun name =>
    let info := (navigateFrom root nodeAddr [.key name]).map (hoverInfoAt root)
    { label := name
      kind := 5
      detail := info.bind (·.typeInfo)
      documentation := info.bind (·.description)
      insertText :=
        some (if includeLeadingQuote then "\"" ++ name ++ "\": "
              else name ++ "\": ")
      insertTextFormat := 1 })

/-- Rust `make_snippet` from completion.rs. -/
def makeSnippet (label insertText : String) : CompletionItem :=
  { label := label, kind := 12, detail := none, documentation := none,
    insertText := some insertText, insertTextFormat := 2 }

/-- Rust `value_completions` from completion.rs. -/
def valueCompletions (root : Json) (addr : Addr) : List CompletionItem :=
  let evs := enumValuesAt root addr
  if ¬ evs.isEmpty then
    evs.map (fun v =>
      { label := v, kind := 12, detail := none, documentation := none,
        insertText := some v, insertTextFormat := 1 })
  else
    match schemaTypeAt root addr with
    | some "boolean" => [makeSnippet "true" "true", makeSnippet "false" "false"]
    | some "null" => [makeSnippet "null" "null"]
    | some "array" => [makeSnippet "[]" "[$1]"]
    | some "object" => [makeSnippet "\x7b\x7d" "\x7b$1\x7d"]
    | some "string" => [makeSnippet "\"\"" "\"$1\""]
    | _ => []

/-- Rust `handle_completion` from completion.rs, modelled from the point
where the document text and the fetched schema are in hand (the source
first reads both from the document store and the schema cache; absence of
either yields `None` before this logic runs).  `.error` only marks fuel
exhaustion of the underlying position scan. -/
def handleCompletion (text : String) (line char : Nat) (schema : Json) :
    Except Unit (Option (List CompletionItem)) :=
  match positionToContext text line char with
  | .error e => .error e
  | .ok ctx =>
    .ok (match ctx with
      | none => none
      | some (.key path) =>
        match (if path.isEmpty then some ([] : Addr) else navigate schema path) with
        | none => none
        | some parent =>
          let names := propertyNamesFuel schema (pnFuel schema) parent
          let items := propertyCompletionsFromNames schema parent names false
          if items.isEmpty then none else some items
      | some (.keyStart path) =>
        match (if path.isEmpty then some ([] : Addr) else navigate schema path) with
        | none => none
        | some parent =>
          let names := propertyNamesFuel schema (pnFuel schema) parent
          let items := propertyCompletionsFromNames schema parent names true
          if items.isEmpty then none else some items
      | some (.value path) | some (.valueStart path) =>
        match navigate schema path with
        | none => none
        | some a =>
          let items := valueCompletions schema a
          if items.isEmpty then none else some items)

/-- The document of scenario S5: a `$schema` member followed by an empty
pair of key quotes; the cursor column 44 sits inside the empty quotes. -/
def s5Doc : String := "\x7b \"$schema\": \"https://example.com/s.json\", \"\" \x7d"

/-- The schema of scenario S5: top-level properties `name`, `count`,
`enabled`. -/
def s5Schema : Json :=
  .obj [("type", .str "object"),
        ("properties", .obj
          [("name", .obj [("type", .str "string")]),
           ("count", .obj [("type", .str "integer")]),
           ("enabled", .obj [("type", .str "boolean")])])]

/-- A small valid JSON object document; byte offset 1 is the whitespace
between the opening brace and the first key. -/
def c5Doc : String := "\x7b \"a\": 1 \x7d"

/-- UTF-8 continuation byte test (`0x80..0xBF`). -/
def isContByte (b : Nat) : Bool :=
  decide (128 ≤ b) && decide (b < 192)

/-- Rust `str::is_char_boundary` at index `n ≤ len`, on the byte list. -/
def isCharBoundaryAt (bs : List Nat) (n : Nat) : Bool :=
  n = 0 || n = bs.length ||
    (match bs.get? n with
     | some b => !(isContByte b)
     | none => false)

/-- First index of a byte in a byte list (Rust `str::find` of a char). -/
def findByte : List Nat → Nat → Option Nat
  | [], _ => none
  | b :: rest, t => if b = t then some 0 else (findByte rest t).map (· + 1)

/-- First index of a byte substring (Rust `str::find` of a literal). -/
def findSub (hay needle : List Nat) : Option Nat :=
  if needle.isPrefixOf hay then some 0
  else
    match hay with
    | [] => none
    | _ :: t => (findSub t needle).map (· + 1)

/-- ASCII whitespace trimmed by Rust `str::trim_start` (the source also
trims a few non-ASCII whitespace characters, which no claim depends on). -/
def isRustWsByte (b : Nat) : Bool :=
  b = 32 || b = 9 || b = 10 || b = 13 || b = 11 || b = 12

def trimStartBytes (bs : List Nat) : List Nat :=
  bs.dropWhile isRustWsByte

/-- Best-effort UTF-8 decoding of a byte list (used to recover the URL
string sliced between ASCII quotes; on the inputs in theorems the bytes
are valid UTF-8). -/
def utf8Decode : List Nat → List Char
  | [] => []
  | b :: rest =>
    if b < 0x80 then Char.ofNat b :: utf8Decode rest
    else if b < 0xE0 then
      match rest with
      | c1 :: r2 => Char.ofNat ((b % 0x20) * 0x40 + c1 % 0x40) :: utf8Decode r2
      | [] => []
    else if b < 0xF0 then
      match rest with
      | c1 :: c2 :: r3 =>
        Char.ofNat (((b % 0x10) * 0x40 + c1 % 0x40) * 0x40 + c2 % 0x40)
          :: utf8Decode r3
      | _ => []
    else
      match rest with
      | c1 :: c2 :: c3 :: r4 =>
        Char.ofNat ((((b % 8) * 0x40 + c1 % 0x40) * 0x40 + c2 % 0x40) * 0x40
          + c3 % 0x40) :: utf8Decode r4
      | _ => []

/-- Rust `extract_schema_url` from document.rs, at the byte level.
`.error ()` models the Rust panic of the slice `&text[..min(len, 2048)]`
when that index is not a character boundary; the later slices are at
indices returned by `find` of ASCII patterns and cannot panic. -/
def extractSchemaUrl (bs : List Nat) : Except Unit (Option String) :=
  let n := min bs.length 2048
  if ¬ isCharBoundaryAt bs n then .error ()
  else
    let scan := bs.take n
    match findSub scan (strBytes "\"$schema\"") with
    | none => .ok none
    | some keyPos =>
      let afterKey := scan.drop (keyPos + 9)
      match findByte afterKey 58 with
      | none => .ok none
      | some ci =>
        let afterColon := trimStartBytes (afterKey.drop (ci + 1))
        match afterColon with
        | 34 :: inner =>
          match findByte inner 34 with
          | none => .ok none
          | some e =>
            let url := inner.take e
            .ok (if url.isEmpty then none
                 else some (String.mk (utf8Decode url)))
        | _ => .ok none

/-- An LSP position: zero-based line and UTF-16 column. -/
structure LspPos where
  line : Nat
  character : Nat
deriving DecidableEq, Repr

/-- An LSP range. -/
structure LspRange where
  rangeStart : LspPos
  rangeEnd : LspPos
deriving DecidableEq, Repr

/-- One element of the `didChange` content-change list. -/
structure ContentChange where
  range : Option LspRange
  text : String
deriving DecidableEq, Repr

/-- The per-document state of the document store (document.rs): the rope
(modelled as its character list), the version, the cached `$schema` URL
and the flat text snapshot. -/
structure DocumentState where
  rope : List Char
  version : Int
  schemaUrl : Option String
  text : String
deriving DecidableEq, Repr

/-- ropey `Rope::len_lines`: line-break count plus one. -/
def lenLines (r : List Char) : Nat := r.count '\n' + 1

/-- ropey `Rope::line_to_char`: character index of the start of a line. -/
def lineToChar : List Char → Nat → Nat
  | _, 0 => 0
  | [], _ + 1 => 0
  | c :: rest, i + 1 =>
    if c = '\n' then 1 + lineToChar rest i else 1 + lineToChar rest (i + 1)

/-- The current line up to and including its line break. -/
def takeLine : List Char → List Char
  | [] => []
  | c :: rest => if c = '\n' then [c] else c :: takeLine rest

/-- ropey `Rope::line`: the slice of a line including its line break. -/
def lineSlice (r : List Char) (i : Nat) : List Char :=
  takeLine (r.drop (lineToChar r i))

/-- The UTF-16 walk of `lsp_pos_to_char_idx` (document.rs): number of
characters covered by the UTF-16 column, snapping into a surrogate pair
to its start. -/
def utf16CharOffset : List Char → Nat → Nat
  | [], _ => 0
  | c :: rest, rem =>
    if rem = 0 then 0
    else if rem < utf16Len c then 0
    else 1 + utf16CharOffset rest (rem - utf16Len c)

/-- Rust `lsp_pos_to_char_idx` from document.rs. -/
def lspPosToCharIdx (rope : List Char) (p : LspPos) : Except String Nat :=
  if lenLines rope ≤ p.line then .error "line out of range"
  else .ok (lineToChar rope p.line + utf16CharOffset (lineSlice rope p.line) p.character)

/-- Failure of one incremental change: a range-conversion error
(propagated by `?` in the source, so `update` returns it), or a ropey
panic (`remove` with a reversed range). -/
inductive ApplyErr where
  | rangeErr : String → ApplyErr
  | ropePanic : ApplyErr
deriving DecidableEq, Repr

/-- One iteration of the change loop of `DocumentStore::update`
(document.rs): full replacement or incremental remove-then-insert.  Both
range conversions happen before any mutation, so a failing change leaves
the state untouched. -/
def applyChange (s : DocumentState) (c : ContentChange) :
    Except ApplyErr DocumentState :=
  match c.range with
  | none => .ok { s with rope := c.text.data, text := c.text }
  | some r =>
    match lspPosToCharIdx s.rope r.rangeStart with
    | .error e => .error (.rangeErr e)
    | .ok st =>
      match lspPosToCharIdx s.rope r.rangeEnd with
      | .error e => .error (.rangeErr e)
      | .ok en =>
        if en < st ∨ s.rope.length < en then .error .ropePanic
        else
          let removed := s.rope.take st ++ s.rope.drop en
          let rope2 := removed.take st ++ c.text.data ++ removed.drop st
          .ok { s with rope := rope2, text := String.mk rope2 }

/-- The change loop of `update`: the state is mutated in place through the
map guard, so on failure the changes already applied remain. -/
def applyLoop : DocumentState → List ContentChange → DocumentState × Option ApplyErr
  | s, [] => (s, none)
  | s, c :: cs =>
    match applyChange s c with
    | .ok s2 => applyLoop s2 cs
    | .error e => (s, some e)

/-- Result of `DocumentStore::update`: success, a returned error (with the
state as left behind), or a panic (ropey, or the `extract_schema_url`
slice; the version write precedes the re-scan in the source). -/
inductive UpdateOutcome where
  | ok : DocumentState → UpdateOutcome
  | err : String → DocumentState → UpdateOutcome
  | crashed : DocumentState → UpdateOutcome
deriving DecidableEq, Repr

/-- Rust `DocumentStore::update` from document.rs, for a present document
(an unknown URI returns `NotFound` before this logic runs). -/
def updateDoc (s : DocumentState) (version : Int)
    (changes : List ContentChange) : UpdateOutcome :=
  match applyLoop s changes with
  | (s2, some (.rangeErr e)) => .err e s2
  | (s2, some .ropePanic) => .crashed s2
  | (s2, none) =>
    let s3 := { s2 with version := version }
    match extractSchemaUrl (strBytes s3.text) with
    | .ok u => .ok { s3 with schemaUrl := u }
    | .error _ => .crashed s3

/-- Rust `DocumentStore::open` from document.rs. -/
def openDoc (version : Int) (text : String) : Except Unit DocumentState :=
  match extractSchemaUrl (strBytes text) with
  | .error e => .error e
  | .ok u => .ok { rope := text.data, version := version, schemaUrl := u, text := text }

/-- The document-state invariant of claim C9: the rope and the text
snapshot agree, and the cached `$schema` URL is the re-scan of the text. -/
def documentInvariant (s : DocumentState) : Prop :=
  s.rope = s.text.data ∧ extractSchemaUrl (strBytes s.text) = .ok s.schemaUrl

/-- The opened document of the C4 counterexample. -/
def c4Start : DocumentState :=
  { rope := ['a', 'b'], version := 1, schemaUrl := none, text := "ab" }

/-- Two changes: a full replacement, then an incremental change whose
range lies past the end of the document. -/
def c4Changes : List ContentChange :=
  [{ range := none, text := "XY" },
   { range := some { rangeStart := { line := 5, character := 0 },
                     rangeEnd := { line := 5, character := 0 } },
     text := "" }]

/-- The state `update` leaves behind on the C4 counterexample: the full
replacement has been applied, the failing change aborted the loop. -/
def c4Partial : DocumentState :=
  { rope := ['X', 'Y'], version := 1, schemaUrl := none, text := "XY" }

/-- A text of 2047 ASCII bytes followed by a three-byte character, so that
byte offset 2048 falls inside the final character. -/
def c10Text : String := String.mk (List.replicate 2047 'a' ++ ['€'])

/-- A document text declaring a `$schema` (C9 witness). -/
def c9Text0 : String := "\x7b\"$schema\":\"u\"\x7d"

/-- The state after opening `c9Text0` (C9 witness). -/
def c9W0 : DocumentState :=
  { rope := c9Text0.data, version := 1, schemaUrl := some "u", text := c9Text0 }

/-- The state after a full-replacement update to `\x7b\x7d` (C9 witness). -/
def c9W1 : DocumentState :=
  { rope := ['\x7b', '\x7d'], version := 2, schemaUrl := none, text := "\x7b\x7d" }

/-- Rust `ServerConfig` from config.rs. -/
structure ServerConfig where
  schemaTtlSecs : Nat
  cacheDir : Option String
  schemaCacheCapacity : Nat
deriving DecidableEq, Repr

/-- `ServerConfig::default`. -/
def ServerConfig.defaultConfig : ServerConfig :=
  { schemaTtlSecs := 28800, cacheDir := none, schemaCacheCapacity := 128 }

/-- serde field extraction for a defaulted u64 field: missing uses the
default, a non-negative integer parses, anything else fails the whole
deserialization (floats are not modelled; no claim feeds them). -/
def parseU64Field (fs : List (String × Json)) (name : String) (dflt : Nat) :
    Option Nat :=
  match fs.find? (fun p => p.1 == name) with
  | none => some dflt
  | some (_, .num n) => if 0 ≤ n then some n.toNat else none
  | some _ => none

/-- serde field extraction for the optional `cache_dir` path. -/
def parseDirField (fs : List (String × Json)) : Option (Option String) :=
  match fs.find? (fun p => p.1 == "cache_dir") with
  | none => some none
  | some (_, .null) => some none
  | some (_, .str s) => some (some s)
  | some _ => none

/-- Rust `ServerConfig::from_value` (config.rs): serde deserialization
with unknown keys ignored, falling back to all defaults when the value is
malformed (`unwrap_or_default`). -/
def ServerConfig.fromValue (v : Json) : ServerConfig :=
  match v with
  | .obj fs =>
    match parseU64Field fs "schema_ttl_secs" 28800, parseDirField fs,
          parseU64Field fs "schema_cache_capacity" 128 with
    | some t, some d, some c =>
      { schemaTtlSecs := t, cacheDir := d, schemaCacheCapacity := c }
    | _, _, _ => ServerConfig.defaultConfig
  | _ => ServerConfig.defaultConfig

/-- The schema cache state (cache.rs): the moka positive cache as a list
of (url, schema, insertion time) entries with its TTL and capacity, and
the failure map as (url, failure time) pairs.  The internal recency
bookkeeping of moka is not modelled; no claim depends on eviction order. -/
structure CacheState where
  entries : List (String × Json × Nat)
  errors : List (String × Nat)
  ttl : Nat
  capacity : Nat

/-- Rust `SchemaCache::new` (cache.rs): an empty cache configured with the
TTL and capacity of the given config. -/
def SchemaCache.new (c : ServerConfig) : CacheState :=
  { entries := [], errors := [],
    ttl := c.schemaTtlSecs, capacity := c.schemaCacheCapacity }

/-- Result of one `get_or_fetch` call. -/
inductive FetchResult where
  | ok : Json → FetchResult
  | cooldown : FetchResult
  | loadFailed : FetchResult

/-- Failure-map lookup (`errors.get(url)`). -/
def lookupErr (errors : List (String × Nat)) (url : String) : Option Nat :=
  (errors.find? (fun p => p.1 == url)).map (·.2)

/-- Failure-map removal (`errors.remove(url)`). -/
def removeErr (errors : List (String × Nat)) (url : String) :
    List (String × Nat) :=
  errors.filter (fun p => !(p.1 == url))

/-- The moka positive-cache lookup: a hit only while the entry is younger
than the TTL. -/
def cacheLookup (s : CacheState) (url : String) (now : Nat) : Option Json :=
  match s.entries.find? (fun e => e.1 == url) with
  | some e => if now - e.2.2 < s.ttl then some e.2.1 else none
  | none => none

/-- The `try_get_with` body of `get_or_fetch` (cache.rs): positive-cache
hit, or run the loader; a success is inserted into the positive cache
(with capacity enforcement); a failure is not cached.  On failure the
code inserts the failure time into `errors` — but `errors` is
`self.errors.clone()` (cache.rs:48), and `DashMap::clone` is a deep copy
of the shard maps, not a shared handle, so the insert (cache.rs:61) lands
in a copy that is dropped when the loading future completes: the shared
failure map of the cache state is unchanged.  The third component records
whether the loader was invoked. -/
def fetchStep (loader : String → Option Json) (s : CacheState) (url : String)
    (now : Nat) : CacheState × FetchResult × Bool :=
  match cacheLookup s url now with
  | some v => (s, .ok v, false)
  | none =>
    match loader url with
    | some v =>
      let entries2 :=
        ((url, v, now) :: s.entries.filter (fun e => !(e.1 == url))).take
          s.capacity
      ({ s with entries := entries2 }, .ok v, true)
    | none =>
      let _errorsClone := (url, now) :: removeErr s.errors url
      (s, .loadFailed, true)

/-- Rust `SchemaCache::get_or_fetch` (cache.rs): consult the failure map
first — inside the cooldown window return an error immediately without
loading; after the window clear the record and retry. -/
def getOrFetch (loader : String → Option Json) (s : CacheState) (url : String)
    (now : Nat) : CacheState × FetchResult × Bool :=
  match lookupErr s.errors url with
  | some t =>
    if now - t < 60 then (s, .cooldown, false)
    else fetchStep loader { s with errors := removeErr s.errors url } url now
  | none => fetchStep loader s url now

/-- A sequence of `get_or_fetch` calls against the shared cache state. -/
def runCalls (loader : String → Option Json) :
    CacheState → List (String × Nat) → CacheState
  | s, [] => s
  | s, (u, t) :: rest => runCalls loader (getOrFetch loader s u t).1 rest

/-- The loader of the C2 failing input: every load fails. -/
def c2Loader : String → Option Json := fun _ => none

/-- The C2 failing input start state: a fresh default-configured cache. -/
def c2S0 : CacheState := SchemaCache.new ServerConfig.defaultConfig

/-- The cache configuration parameters held by the backend: `Backend::new`
(backend.rs) builds the schema cache from `ServerConfig::default()`. -/
structure Backend where
  schemaCache : CacheState

/-- Rust `Backend::new` (backend.rs). -/
def Backend.new : Backend :=
  { schemaCache := SchemaCache.new ServerConfig.defaultConfig }

/-- Rust `Backend::initialize` (backend.rs): parse the server config from
the initialization options — and only log it; the backend state, and with
it the schema cache built in `Backend::new`, is not modified. -/
def Backend.initialize (b : Backend) (opts : Option Json) :
    Backend × ServerConfig :=
  let config :=
    match opts with
    | some v => ServerConfig.fromValue v
    | none => ServerConfig.defaultConfig
  (b, config)

/-- Initialization options requesting a TTL of 7 seconds and a capacity
of 5 entries. -/
def c8Opts : Json :=
  .obj [("schema_ttl_secs", .num 7), ("schema_cache_capacity", .num 5)]

/-- A member of a flat, compactly rendered JSON object: a key of plain
lowercase letters and a value that is a digit literal. -/
structure FlatPair where
  key : List Char
  val : List Char
deriving DecidableEq, Repr

/-- Well-formedness of one flat member: nonempty lowercase key, nonempty
digit value. -/
def wfPair (p : FlatPair) : Prop :=
  p.key ≠ [] ∧ (∀ c ∈ p.key, 97 ≤ c.toNat ∧ c.toNat ≤ 122) ∧
  p.val ≠ [] ∧ (∀ c ∈ p.val, 48 ≤ c.toNat ∧ c.toNat ≤ 57)

instance (p : FlatPair) : Decidable (wfPair p) := by
  unfold wfPair
  infer_instance

/-- Well-formedness of a member list. -/
def wfPairs (ps : List FlatPair) : Prop := ∀ p ∈ ps, wfPair p

instance (ps : List FlatPair) : Decidable (wfPairs ps) := by
  unfold wfPairs
  infer_instance

/-- The characters of one rendered member: `"key":val`. -/
def pairChars (p : FlatPair) : List Char :=
  '"' :: p.key ++ '"' :: ':' :: p.val

/-- The characters between the braces, members separated by commas. -/
def bodyChars : List FlatPair → List Char
  | [] => []
  | [p] => pairChars p
  | p :: rest => pairChars p ++ ',' :: bodyChars rest

/-- The rendered document characters: `\x7b"k1":v1,...\x7d`. -/
def docChars (ps : List FlatPair) : List Char :=
  '\x7b' :: bodyChars ps ++ ['\x7d']

/-- The rendered document. -/
def docString (ps : List FlatPair) : String :=
  String.mk (docChars ps)

/-- The bytes of one rendered member. -/
def pairBytes (p : FlatPair) : List Nat :=
  34 :: p.key.map Char.toNat ++ 34 :: 58 :: p.val.map Char.toNat

/-- The bytes between the braces. -/
def bodyBytes : List FlatPair → List Nat
  | [] => []
  | [p] => pairBytes p
  | p :: rest => pairBytes p ++ 44 :: bodyBytes rest

/-- Strict decrease of `countP` when one element stops satisfying the
predicate and the predicate only gets stronger. -/
theorem countP_strict {α : Type} (l : List α) (p q : α → Bool)
    (himp : ∀ x, q x = true → p x = true) (a : α) (ha : a ∈ l)
    (hpa : p a = true) (hqa : ¬ q a = true) :
    l.countP q < l.countP p := by
  induction l with
  | nil => cases ha
  | cons b t ih =>
    rw [List.countP_cons, List.countP_cons]
    rcases List.mem_cons.mp ha with hba | hat
    · subst hba
      have hle : t.countP q ≤ t.countP p :=
        List.countP_mono_left (fun x _ hq => himp x hq)
      simp only [hpa, hqa, if_true, if_false, Bool.false_eq_true]
      omega
    · have hlt := ih hat
      have : (if q b = true then 1 else 0) ≤ (if p b = true then 1 else 0) := by
        by_cases hqb : q b = true
        · simp [hqb, himp b hqb]
        · simp [hqb]
      omega

/-- Visiting a fresh valid address strictly shrinks the unvisited count. -/
theorem unvisited_strict {root : Json} {vis : List Addr} {addr : Addr}
    (hmemV : addr ∈ validAddrs root) (hnm : addr ∉ vis) :
    unvisitedCount root (addr :: vis) < unvisitedCount root vis := by
  refine countP_strict _ _ _ ?_ addr hmemV (by simpa using hnm) (by simp)
  intro x hx
  simp only [decide_eq_true_eq] at hx ⊢
  exact fun hmem => hx (List.mem_cons_of_mem _ hmem)

/-- The unvisited count is antitone in the visited set. -/
theorem unvisited_anti {root : Json} {vis vis2 : List Addr}
    (h : vis <:+ vis2) :
    unvisitedCount root vis2 ≤ unvisitedCount root vis := by
  refine List.countP_mono_left ?_
  intro a _ ha
  simp only [decide_eq_true_eq] at ha ⊢
  exact fun hmem => ha (h.mem hmem)

theorem validAddrsFields_mem :
    ∀ (fs : List (String × Json)) (n i : Nat) (k : String) (c : Json),
      fs.get? i = some (k, c) →
      ∀ x ∈ validAddrs c, ((n + i) :: x) ∈ validAddrsFields fs n := by
  intro fs
  induction fs with
  | nil => intro n i k c h; cases h
  | cons hd t ih =>
    intro n i k c h x hx
    cases i with
    | zero =>
      simp only [List.get?] at h
      cases h
      simp only [validAddrsFields, Nat.add_zero, List.mem_append]
      exact Or.inl (List.mem_map_of_mem _ hx)
    | succ m =>
      simp only [List.get?] at h
      have := ih (n + 1) m k c h x hx
      simp only [validAddrsFields, List.mem_append]
      right
      have harith : n + (m + 1) = (n + 1) + m := by omega
      rw [harith]
      exact this

theorem validAddrsElems_mem :
    ∀ (xs : List Json) (n i : Nat) (c : Json),
      xs.get? i = some c →
      ∀ x ∈ validAddrs c, ((n + i) :: x) ∈ validAddrsElems xs n := by
  intro xs
  induction xs with
  | nil => intro n i c h; cases h
  | cons hd t ih =>
    intro n i c h x hx
    cases i with
    | zero =>
      simp only [List.get?] at h
      cases h
      simp only [validAddrsElems, Nat.add_zero, List.mem_append]
      exact Or.inl (List.mem_map_of_mem _ hx)
    | succ m =>
      simp only [List.get?] at h
      have := ih (n + 1) m c h x hx
      simp only [validAddrsElems, List.mem_append]
      right
      have harith : n + (m + 1) = (n + 1) + m := by omega
      rw [harith]
      exact this

/-- Every address with a subtree is a valid address. -/
theorem mem_validAddrs :
    ∀ (a : Addr) (root : Json), (root.atAddr a).isSome → a ∈ validAddrs root := by
  intro a
  induction a with
  | nil => intro root _; cases root <;> simp [validAddrs]
  | cons i rest ih =>
    intro root h
    simp only [Json.atAddr] at h
    obtain ⟨c, hc, hrest⟩ : ∃ c, root.child i = some c ∧ (c.atAddr rest).isSome := by
      cases hch : root.child i with
      | none => rw [hch] at h; simp [Option.bind] at h
      | some c =>
        rw [hch] at h
        exact ⟨c, rfl, by simpa [Option.bind] using h⟩
    have hrm := ih c hrest
    cases root with
    | obj fs =>
      simp only [Json.child] at hc
      obtain ⟨⟨k, c2⟩, hget, hc2⟩ : ∃ p, fs.get? i = some p ∧ p.2 = c := by
        cases hg : fs.get? i with
        | none => rw [hg] at hc; simp at hc
        | some p => rw [hg] at hc; simp at hc; exact ⟨p, rfl, hc⟩
      subst hc2
      have := validAddrsFields_mem fs 0 i k _ hget rest hrm
      simpa [validAddrs] using this
    | arr xs =>
      simp only [Json.child] at hc
      have := validAddrsElems_mem xs 0 i c hc rest hrm
      simpa [validAddrs] using this
    | null => simp [Json.child] at hc
    | bool b => simp [Json.child] at hc
    | num n => simp [Json.child] at hc
    | str s => simp [Json.child] at hc

theorem one_le_sizeNodes (j : Json) : 1 ≤ sizeNodes j := by
  cases j <;> simp only [sizeNodes] <;> omega

theorem sizeFields_get :
    ∀ (fs : List (String × Json)) (i : Nat) (k : String) (v : Json),
      fs.get? i = some (k, v) → sizeNodes v ≤ sizeFields fs := by
  intro fs
  induction fs with
  | nil => intro i k v h; cases h
  | cons hd t ih =>
    intro i k v h
    cases i with
    | zero =>
      simp only [List.get?] at h
      cases h
      simp [sizeFields]
    | succ m =>
      simp only [List.get?] at h
      have := ih m k v h
      simp only [sizeFields]
      omega

theorem sizeElems_get :
    ∀ (xs : List Json) (i : Nat) (v : Json),
      xs.get? i = some v → sizeNodes v ≤ sizeElems xs := by
  intro xs
  induction xs with
  | nil => intro i v h; cases h
  | cons hd t ih =>
    intro i v h
    cases i with
    | zero =>
      simp only [List.get?] at h
      cases h
      simp [sizeElems]
    | succ m =>
      simp only [List.get?] at h
      have := ih m v h
      simp only [sizeElems]
      omega

theorem child_size {j c : Json} {i : Nat} (h : j.child i = some c) :
    sizeNodes c ≤ sizeNodes j := by
  cases j with
  | obj fs =>
    simp only [Json.child] at h
    cases hg : fs.get? i with
    | none => rw [hg] at h; simp at h
    | some p =>
      rw [hg] at h
      simp at h
      subst h
      have := sizeFields_get fs i p.1 p.2 (by simpa using hg)
      simp only [sizeNodes]
      omega
  | arr xs =>
    simp only [Json.child] at h
    have := sizeElems_get xs i c h
    simp only [sizeNodes]
    omega
  | null => simp [Json.child] at h
  | bool b => simp [Json.child] at h
  | num n => simp [Json.child] at h
  | str s => simp [Json.child] at h

theorem atAddr_size :
    ∀ (a : Addr) (root j : Json), root.atAddr a = some j →
      sizeNodes j ≤ sizeNodes root := by
  intro a
  induction a with
  | nil => intro root j h; simp [Json.atAddr] at h; subst h; exact le_refl _
  | cons i rest ih =>
    intro root j h
    simp only [Json.atAddr] at h
    cases hc : root.child i with
    | none => rw [hc] at h; simp [Option.bind] at h
    | some c =>
      rw [hc] at h
      simp only [Option.bind] at h
      exact le_trans (ih c j h) (child_size hc)

theorem length_le_sizeElems (xs : List Json) : xs.length ≤ sizeElems xs := by
  induction xs with
  | nil => simp [sizeElems]
  | cons hd t ih =>
    simp only [sizeElems, List.length_cons]
    have := one_le_sizeNodes hd
    omega

theorem combKeySubAddrs_len (j : Json) (addr : Addr) (key : String) :
    (combKeySubAddrs j addr key).length ≤ sizeNodes j := by
  unfold combKeySubAddrs
  cases hk : j.keyIdx key with
  | none =>
    simp only [hk, List.length_nil]
    omega
  | some ki =>
    cases ha : (j.child ki).bind Json.asArr with
    | none =>
      simp only [hk, ha, List.length_nil]
      omega
    | some xs =>
      simp only [hk, ha, List.length_map, List.length_range]
      obtain ⟨c, hc, hcx⟩ : ∃ c, j.child ki = some c ∧ c.asArr = some xs := by
        cases hch : j.child ki with
        | none => rw [hch] at ha; simp [Option.bind] at ha
        | some c => rw [hch] at ha; exact ⟨c, rfl, by simpa [Option.bind] using ha⟩
      have hcarr : c = .arr xs := by
        cases c <;> simp [Json.asArr] at hcx
        subst hcx; rfl
      subst hcarr
      have h1 := child_size hc
      have h2 := length_le_sizeElems xs
      simp only [sizeNodes] at h1
      omega

theorem combSubAddrs_len {root j : Json} {addr : Addr}
    (h : root.atAddr addr = some j) :
    (combSubAddrs j addr).length ≤ 3 * sizeNodes root := by
  have hs := atAddr_size addr root j h
  have h1 := combKeySubAddrs_len j addr "allOf"
  have h2 := combKeySubAddrs_len j addr "anyOf"
  have h3 := combKeySubAddrs_len j addr "oneOf"
  simp only [combSubAddrs, List.length_append]
  omega

/-- `resolve_ref` only ever grows the visited set (by the root identity). -/
theorem resolveRef_suffix (root j : Json) (vis : List Addr) :
    vis <:+ (resolveRef root j vis).2 := by
  unfold resolveRef
  cases (j.getKey "$ref").bind Json.asStr with
  | none => exact List.suffix_refl _
  | some s =>
    by_cases hsw : strStartsWith s "#" = true
    · simp only [hsw, if_true]
      by_cases hmem : ([] : Addr) ∈ vis
      · simp only [hmem, if_true]
        exact List.suffix_refl _
      · simp only [hmem, if_false]
        exact List.suffix_cons _ _
    · simp only [hsw, if_false]
      exact List.suffix_refl _

/-- The visited set threaded through `navigateInner` and `navigateCombs`
only grows (as a suffix). -/
theorem nav_suffix (root : Json) :
    ∀ fuel : Nat,
      (∀ addr path vis r v2,
        navigateInner root fuel addr path vis = .ok (r, v2) → vis <:+ v2) ∧
      (∀ l path vis r v2,
        navigateCombs root fuel l path vis = .ok (r, v2) → vis <:+ v2) := by
  intro fuel
  induction fuel with
  | zero =>
    constructor
    · intro addr path vis r v2 h
      simp [navigateInner] at h
    · intro l path vis r v2 h
      simp [navigateCombs] at h
  | succ n ih =>
    constructor
    · intro addr path vis r v2 h
      rw [navigateInner] at h
      by_cases hmem : addr ∈ vis
      · simp only [hmem, if_true] at h
        cases h
        exact List.suffix_refl _
      · simp only [hmem, if_false] at h
        have hv1 : vis <:+ addr :: vis := List.suffix_cons _ _
        cases hat : root.atAddr addr with
        | none =>
          rw [hat] at h
          cases h
          exact hv1
        | some j =>
          rw [hat] at h
          dsimp only at h
          have hrv : (addr :: vis) <:+ (resolveRef root j (addr :: vis)).2 :=
            resolveRef_suffix root j (addr :: vis)
          cases hat2 : root.atAddr ((resolveRef root j (addr :: vis)).1.getD addr) with
          | none =>
            rw [hat2] at h
            cases h
            exact hv1.trans hrv
          | some j2 =>
            rw [hat2] at h
            dsimp only at h
            cases path with
            | nil =>
              cases h
              exact hv1.trans hrv
            | cons seg rest =>
              dsimp only at h
              cases hseg : tryNavigateSegment j2 seg with
              | some rel =>
                rw [hseg] at h
                exact hv1.trans (hrv.trans (ih.1 _ _ _ _ _ h))
              | none =>
                rw [hseg] at h
                exact hv1.trans (hrv.trans (ih.2 _ _ _ _ _ h))
    · intro l path vis r v2 h
      cases l with
      | nil =>
        rw [navigateCombs] at h
        cases h
        exact List.suffix_refl _
      | cons a rest =>
        rw [navigateCombs] at h
        cases hr : navigateInner root n a path vis with
        | error e => rw [hr] at h; cases h
        | ok p =>
          obtain ⟨ores, v⟩ := p
          rw [hr] at h
          cases ores with
          | some res =>
            simp only at h
            cases h
            exact ih.1 _ _ _ _ _ hr
          | none =>
            simp only at h
            exact (ih.1 _ _ _ _ _ hr).trans (ih.2 _ _ _ _ _ h)

/-- The measure is antitone in the visited set. -/
theorem measure_anti {root : Json} {path : List PathSegment}
    {vis v : List Addr} (h : vis <:+ v) :
    innerMeasure root path v ≤ innerMeasure root path vis := by
  unfold innerMeasure
  have := @unvisited_anti root vis v h
  have hm := Nat.mul_le_mul_right
    (3 * sizeNodes root + path.length + 2) this
  omega

theorem measure_arith_direct (u2 u f p : Nat) (h : u2 < u) :
    u2 * (f + p + 2) + p + 2 ≤ u * (f + (p + 1) + 2) + (p + 1) + 1 := by
  have h1 : (u2 + 1) * (f + p + 3) ≤ u * (f + p + 3) :=
    Nat.mul_le_mul_right _ h
  have e1 : (u2 + 1) * (f + p + 3)
      = u2 * f + u2 * p + 3 * u2 + f + p + 3 := by ring
  have e2 : u2 * (f + p + 2) = u2 * f + u2 * p + 2 * u2 := by ring
  have e3 : u * (f + (p + 1) + 2) = u * (f + p + 3) := by ring
  rw [e1] at h1
  rw [e2, e3]
  omega

theorem measure_arith_combs (u2 u f p l : Nat) (h : u2 < u) (hl : l ≤ f) :
    u2 * (f + p + 2) + p + 1 + l + 1 ≤ u * (f + p + 2) + p + 1 := by
  have h1 : (u2 + 1) * (f + p + 2) ≤ u * (f + p + 2) :=
    Nat.mul_le_mul_right _ h
  have e1 : (u2 + 1) * (f + p + 2) = u2 * (f + p + 2) + (f + p + 2) := by ring
  rw [e1] at h1
  omega

/-- With fuel exceeding the measure, `navigateInner` and `navigateCombs`
never exhaust the fuel. -/
theorem nav_ok (root : Json) :
    ∀ fuel : Nat,
      (∀ addr path vis, innerMeasure root path vis < fuel →
        ∃ r, navigateInner root fuel addr path vis = .ok r) ∧
      (∀ l path vis, innerMeasure root path vis + l.length < fuel →
        ∃ r, navigateCombs root fuel l path vis = .ok r) := by
  intro fuel
  induction fuel with
  | zero =>
    constructor
    · intro addr path vis h; omega
    · intro l path vis h; omega
  | succ n ih =>
    constructor
    · intro addr path vis hm
      rw [navigateInner]
      by_cases hmem : addr ∈ vis
      · exact ⟨(none, vis), by simp [hmem]⟩
      · simp only [hmem, if_false]
        cases hat : root.atAddr addr with
        | none => exact ⟨_, rfl⟩
        | some j =>
          dsimp only
          have haddrV : addr ∈ validAddrs root :=
            mem_validAddrs addr root (by simp [hat])
          have hv1 : unvisitedCount root (addr :: vis) < unvisitedCount root vis :=
            unvisited_strict haddrV hmem
          have hrvs : (addr :: vis) <:+ (resolveRef root j (addr :: vis)).2 :=
            resolveRef_suffix root j (addr :: vis)
          have hU2 : unvisitedCount root (resolveRef root j (addr :: vis)).2
              < unvisitedCount root vis :=
            lt_of_le_of_lt (unvisited_anti hrvs) hv1
          cases hat2 : root.atAddr ((resolveRef root j (addr :: vis)).1.getD addr) with
          | none => exact ⟨_, rfl⟩
          | some j2 =>
            dsimp only
            cases path with
            | nil => exact ⟨_, rfl⟩
            | cons seg rest =>
              dsimp only
              cases hseg : tryNavigateSegment j2 seg with
              | some rel =>
                dsimp only
                apply ih.1
                have harith := measure_arith_direct
                  (unvisitedCount root (resolveRef root j (addr :: vis)).2)
                  (unvisitedCount root vis)
                  (3 * sizeNodes root) rest.length hU2
                simp only [innerMeasure, List.length_cons] at hm ⊢
                omega
              | none =>
                dsimp only
                apply ih.2
                have hL := combSubAddrs_len hat2
                have harith := measure_arith_combs
                  (unvisitedCount root (resolveRef root j (addr :: vis)).2)
                  (unvisitedCount root vis)
                  (3 * sizeNodes root) (seg :: rest).length
                  (combSubAddrs j2 ((resolveRef root j (addr :: vis)).1.getD addr)).length
                  hU2 hL
                simp only [innerMeasure] at hm ⊢
                omega
    · intro l path vis hm
      cases l with
      | nil => exact ⟨(none, vis), by rw [navigateCombs]⟩
      | cons a rest =>
        rw [navigateCombs]
        obtain ⟨⟨ores, v⟩, hr⟩ := ih.1 a path vis (by
          simp only [List.length_cons] at hm; omega)
        rw [hr]
        cases ores with
        | some res => exact ⟨_, rfl⟩
        | none =>
          dsimp only
          have hsuf : vis <:+ v := (nav_suffix root n).1 _ _ _ _ _ hr
          have hmono : innerMeasure root path v ≤ innerMeasure root path vis :=
            measure_anti hsuf
          apply ih.2
          simp only [List.length_cons] at hm
          omega

/-- C1: refuted on the code.  For the root schema `refSchema`, where
`properties.k` is an object with a local `$ref` whose target
`/definitions/T` has `properties.m`, navigation on the root node along
`[Key k, Key m]` returns absent, even though the subschema at
`/definitions/T/properties/m` exists: `navigate` starts by inserting the
identity of the root into the visited set, and `resolve_ref` guards on the
identity of the root, so the `$ref` is never resolved during navigation
that starts from the root node, and keyword dispatch proceeds on the
unresolved reference object. -/
theorem c1_ref_not_resolved_during_navigation_from_root :
    navigate refSchema [.key "k", .key "m"] = none ∧
    refSchema.pointerAddr "/definitions/T/properties/m" = some [1, 0, 0, 0] ∧
    refSchema.atAddr [1, 0, 0, 0] = some (.obj [("type", .str "string")]) :=
  ⟨rfl, rfl, rfl⟩

/-- C6: refuted on the code.  For `compSchema`, both
`navigate [Key a, Key b]` and `navigate [Key a]` followed by
`navigate [Key b]` on its result are defined, yet they yield different
schema nodes: the composed walk never resolves the `$ref` at
`properties.a` (the root identity is already in the visited set) and lands
on the inline `properties.a.properties.b` of type `integer`, while the
split walk starts its second call with a fresh visited set, resolves the
`$ref` to `/definitions/D`, and lands on `/definitions/D/properties/b` of
type `string`. -/
theorem c6_navigate_not_compositional :
    navigate compSchema [.key "a", .key "b"] = some [0, 0, 1, 0] ∧
    navigate compSchema [.key "a"] = some [0, 0] ∧
    navigateFrom compSchema [0, 0] [.key "b"] = some [1, 0, 0, 0] ∧
    ([0, 0, 1, 0] : Addr) ≠ [1, 0, 0, 0] ∧
    (compSchema.atAddr [0, 0, 1, 0]).bind (Json.getKey · "type")
      = some (.str "integer") ∧
    (compSchema.atAddr [1, 0, 0, 0]).bind (Json.getKey · "type")
      = some (.str "string") :=
  ⟨rfl, rfl, rfl, by decide, rfl, rfl⟩

/-- C7: confirmed.  Navigation is total: for every schema document, every
start node and every finite path, `navigate_inner` run with the fuel
`navFuelBound` completes (never exhausts the fuel) and returns a result —
a node or absent.  The visited-set guard bounds the recursion: every
recursive step either shortens the path or visits a fresh subtree
identity, of which there are finitely many.  This covers cyclic schemas
such as a property carrying a `$ref` to `#`. -/
theorem c7_navigator_terminates (root : Json) (addr : Addr)
    (path : List PathSegment) :
    ∃ r, navigateInner root (navFuelBound root path) addr path [] = .ok r := by
  apply (nav_ok root (navFuelBound root path)).1
  have hU0 : unvisitedCount root [] ≤ (validAddrs root).length :=
    List.countP_le_length _
  have h1 : unvisitedCount root [] *
        (3 * sizeNodes root + path.length + 2)
      ≤ (validAddrs root).length * (3 * sizeNodes root + path.length + 2) :=
    Nat.mul_le_mul_right _ hU0
  have h2 : ((validAddrs root).length + 1) *
        (3 * sizeNodes root + path.length + 2)
      = (validAddrs root).length * (3 * sizeNodes root + path.length + 2)
        + (3 * sizeNodes root + path.length + 2) := by ring
  simp only [innerMeasure, navFuelBound]
  omega

/-- C3: refuted on the code.  For the scenario S5 document (cursor inside
the empty pair of key quotes at the top level) and a schema declaring
top-level properties `name`, `count` and `enabled`, the position
classifies as `Key` with path `[Key ""]` (the partially typed key is
included in the path, as position.rs documents), and `handle_completion`
then navigates that full path as if it were the parent node; the
navigation fails on the empty key, the `?` operator aborts the handler,
and the completion result is `None` — no items at all, although the
parent schema does offer the three property names. -/
theorem c3_key_completion_returns_no_items :
    positionToContext s5Doc 0 44 = .ok (some (.key [.key ""])) ∧
    handleCompletion s5Doc 0 44 s5Schema = .ok none ∧
    propertyNamesFuel s5Schema (pnFuel s5Schema) [] = ["count", "enabled", "name"] :=
  ⟨rfl, rfl, rfl⟩

/-- C5, counterexample: the document `\x7b "a": 1 \x7d` is a syntactically
valid JSON object; position (line 0, character 1) has byte offset 1,
which lies strictly inside the object (its bytes span offsets 0 to 9),
yet `position_to_context` returns `Unknown`: the offset falls on
inter-token whitespace, which no branch of the scanner classifies. -/
theorem c5_counterexample_whitespace_unknown :
    lspPositionToByteOffset c5Doc 0 1 = some 1 ∧
    (strBytes c5Doc).length = 10 ∧
    positionToContext c5Doc 0 1 = .ok none :=
  ⟨rfl, rfl, rfl⟩

/-- A successful change application never touches the version or the
cached schema URL, and re-establishes rope/text agreement. -/
theorem applyChange_fields {s s2 : DocumentState} {c : ContentChange}
    (h : applyChange s c = .ok s2) :
    s2.version = s.version ∧ s2.schemaUrl = s.schemaUrl ∧ s2.rope = s2.text.data := by
  unfold applyChange at h
  cases hc : c.range with
  | none =>
    rw [hc] at h
    cases h
    exact ⟨rfl, rfl, rfl⟩
  | some r =>
    rw [hc] at h
    dsimp only at h
    cases h1 : lspPosToCharIdx s.rope r.rangeStart with
    | error e => rw [h1] at h; cases h
    | ok st =>
      rw [h1] at h
      cases h2 : lspPosToCharIdx s.rope r.rangeEnd with
      | error e => rw [h2] at h; cases h
      | ok en =>
        rw [h2] at h
        dsimp only at h
        by_cases hb : en < st ∨ s.rope.length < en
        · simp only [hb, if_true] at h; cases h
        · simp only [hb, if_false] at h
          cases h
          exact ⟨rfl, rfl, rfl⟩

/-- The change loop never touches the version or the schema URL. -/
theorem applyLoop_pres :
    ∀ (cs : List ContentChange) (s s2 : DocumentState) (o : Option ApplyErr),
      applyLoop s cs = (s2, o) →
      s2.version = s.version ∧ s2.schemaUrl = s.schemaUrl := by
  intro cs
  induction cs with
  | nil => intro s s2 o h; cases h; exact ⟨rfl, rfl⟩
  | cons c ct ih =>
    intro s s2 o h
    rw [applyLoop] at h
    cases hc : applyChange s c with
    | ok s3 =>
      rw [hc] at h
      have h1 := applyChange_fields hc
      have h2 := ih s3 s2 o h
      exact ⟨h2.1.trans h1.1, h2.2.trans h1.2.1⟩
    | error e =>
      rw [hc] at h
      cases h
      exact ⟨rfl, rfl⟩

/-- A completed change loop leaves the rope and text in agreement. -/
theorem applyLoop_sync :
    ∀ (cs : List ContentChange) (s s2 : DocumentState),
      s.rope = s.text.data → applyLoop s cs = (s2, none) →
      s2.rope = s2.text.data := by
  intro cs
  induction cs with
  | nil => intro s s2 hs h; cases h; exact hs
  | cons c ct ih =>
    intro s s2 hs h
    rw [applyLoop] at h
    cases hc : applyChange s c with
    | ok s3 =>
      rw [hc] at h
      exact ih s3 s2 (applyChange_fields hc).2.2 h
    | error e => rw [hc] at h; cases h

/-- A failing change loop stops at the first failing change: the state
left behind is exactly the result of the successful earlier changes. -/
theorem applyLoop_err_split :
    ∀ (cs : List ContentChange) (s s2 : DocumentState) (e : ApplyErr),
      applyLoop s cs = (s2, some e) →
      ∃ k c, cs.get? k = some c ∧
        applyLoop s (cs.take k) = (s2, none) ∧
        applyChange s2 c = .error e := by
  intro cs
  induction cs with
  | nil => intro s s2 e h; cases h
  | cons c ct ih =>
    intro s s2 e h
    rw [applyLoop] at h
    cases hc : applyChange s c with
    | ok s3 =>
      rw [hc] at h
      obtain ⟨k, c2, hg, hl, ha⟩ := ih s3 s2 e h
      refine ⟨k + 1, c2, hg, ?_, ha⟩
      simp only [List.take_succ_cons, applyLoop, hc]
      exact hl
    | error e2 =>
      rw [hc] at h
      cases h
      exact ⟨0, c, rfl, rfl, hc⟩

/-- C4, counterexample: a two-change update whose second change is out of
range returns an error, yet the stored state is not the pre-update state:
the first change (a full replacement) remains applied. -/
theorem c4_counterexample_partial_update_remains :
    openDoc 1 "ab" = .ok c4Start ∧
    updateDoc c4Start 2 c4Changes = .err "line out of range" c4Partial ∧
    c4Partial.text = "XY" ∧ c4Start.text = "ab" ∧ c4Partial ≠ c4Start :=
  ⟨rfl, rfl, rfl, rfl, by decide⟩

/-- C4, amended: when `update` returns an error, the version and the
cached schema URL are unchanged, and the stored rope/text are exactly the
result of the changes preceding the first failing one (so a single-change
update that fails leaves the document exactly as it was; changes before
the failing one remain applied). -/
theorem c4_failed_update_state (s : DocumentState) (v : Int)
    (changes : List ContentChange) (e : String) (s2 : DocumentState)
    (h : updateDoc s v changes = .err e s2) :
    s2.version = s.version ∧ s2.schemaUrl = s.schemaUrl ∧
    (∃ k c, changes.get? k = some c ∧
      applyLoop s (changes.take k) = (s2, none) ∧
      applyChange s2 c = .error (.rangeErr e)) ∧
    (changes.length ≤ 1 → s2 = s) := by
  unfold updateDoc at h
  rcases hal : applyLoop s changes with ⟨s3, o⟩
  rw [hal] at h
  cases o with
  | none =>
    dsimp only at h
    cases hx : extractSchemaUrl (strBytes ({ s3 with version := v } : DocumentState).text) with
    | ok u => rw [hx] at h; cases h
    | error e2 => rw [hx] at h; cases h
  | some ae =>
    cases ae with
    | ropePanic => cases h
    | rangeErr msg =>
      cases h
      have hpres := applyLoop_pres changes s s2 _ hal
      obtain ⟨k, c, hg, hl, ha⟩ := applyLoop_err_split changes s s2 _ hal
      refine ⟨hpres.1, hpres.2, ⟨k, c, hg, hl, ha⟩, ?_⟩
      intro hlen
      have hk : k < changes.length := List.get?_eq_some.mp hg |>.1
      have hk0 : k = 0 := by omega
      subst hk0
      simpa [applyLoop] using hl.symm

/-- Witness for the amended C4 theorem at the counterexample input. -/
theorem c4_failed_update_state_witness :
    c4Partial.version = c4Start.version ∧
    c4Partial.schemaUrl = c4Start.schemaUrl ∧
    (∃ k c, c4Changes.get? k = some c ∧
      applyLoop c4Start (c4Changes.take k) = (c4Partial, none) ∧
      applyChange c4Partial c = .error (.rangeErr "line out of range")) ∧
    (c4Changes.length ≤ 1 → c4Partial = c4Start) :=
  c4_failed_update_state c4Start 2 c4Changes "line out of range" c4Partial rfl

/-- C9: confirmed.  After `open`, and after every `update` that returns
success (from a state satisfying the invariant), the stored rope and text
snapshot represent the same string, and the stored schema URL equals the
re-scan of the first `min(len, 2048)` bytes of that text. -/
theorem c9_document_invariant :
    (∀ (v : Int) (t : String) (s : DocumentState),
      openDoc v t = .ok s → documentInvariant s) ∧
    (∀ (s : DocumentState) (v : Int) (cs : List ContentChange)
      (s2 : DocumentState),
      documentInvariant s → updateDoc s v cs = .ok s2 → documentInvariant s2) := by
  constructor
  · intro v t s h
    unfold openDoc at h
    cases he : extractSchemaUrl (strBytes t) with
    | error e => rw [he] at h; cases h
    | ok u =>
      rw [he] at h
      cases h
      exact ⟨rfl, he⟩
  · intro s v cs s2 hinv h
    unfold updateDoc at h
    rcases hal : applyLoop s cs with ⟨s3, o⟩
    rw [hal] at h
    cases o with
    | some ae => cases ae <;> cases h
    | none =>
      dsimp only at h
      cases he : extractSchemaUrl (strBytes s3.text) with
      | error e =>
        rw [show ({ s3 with version := v } : DocumentState).text = s3.text from rfl,
          he] at h
        cases h
      | ok u =>
        rw [show ({ s3 with version := v } : DocumentState).text = s3.text from rfl,
          he] at h
        cases h
        exact ⟨applyLoop_sync cs s s3 hinv.1 hal, he⟩

/-- Witness for C9 at a concrete open followed by a full-replacement
update. -/
theorem c9_document_invariant_witness :
    documentInvariant c9W0 ∧ documentInvariant c9W1 :=
  ⟨c9_document_invariant.1 1 c9Text0 c9W0 rfl,
   c9_document_invariant.2 c9W0 2 [{ range := none, text := "\x7b\x7d" }] c9W1
     ⟨rfl, rfl⟩ rfl⟩

/-- C10: refuted on the code (the claim states the intended totality).
On a text of 2047 ASCII bytes followed by a three-byte character, byte
offset 2048 is a UTF-8 continuation byte, so the slice
`&text[..min(len, 2048)]` in `extract_schema_url` is not at a character
boundary and the Rust function panics instead of returning a value. -/
theorem replicate_a_bytes :
    ∀ n, (List.replicate n 'a').flatMap charUtf8 = List.replicate n 97 := by
  intro n
  induction n with
  | zero => rfl
  | succ m ih =>
    rw [List.replicate_succ, List.replicate_succ, List.flatMap_cons, ih]
    rfl

theorem c10_bytes :
    strBytes c10Text = List.replicate 2047 97 ++ [226, 130, 172] := by
  show (List.replicate 2047 'a' ++ ['€']).flatMap charUtf8 = _
  rw [List.flatMap_append, replicate_a_bytes]
  rfl

theorem c10_len : (strBytes c10Text).length = 2050 := by
  rw [c10_bytes, List.length_append, List.length_replicate]
  rfl

theorem get?_replicate_append (x : Nat) (rest : List Nat) :
    ∀ n k, (List.replicate n x ++ rest).get? (n + k) = rest.get? k := by
  intro n
  induction n with
  | zero => intro k; simp
  | succ m ih =>
    intro k
    rw [List.replicate_succ]
    have he : m + 1 + k = (m + k) + 1 := by omega
    rw [he]
    simp only [List.cons_append, List.get?]
    exact ih k

theorem c10_get : (strBytes c10Text).get? 2048 = some 130 := by
  rw [c10_bytes]
  have := get?_replicate_append 97 [226, 130, 172] 2047 1
  exact this

theorem c10_boundary : isCharBoundaryAt (strBytes c10Text) 2048 = false := by
  unfold isCharBoundaryAt
  rw [c10_get, c10_len]
  rfl

/-- Any byte list whose cut point is not a character boundary makes
`extract_schema_url` panic. -/
theorem extract_panics_of (bs : List Nat)
    (h : isCharBoundaryAt bs (min bs.length 2048) = false) :
    extractSchemaUrl bs = .error () := by
  unfold extractSchemaUrl
  simp [h]

/-- C10: refuted on the code (the claim states the intended totality).
On a text of 2047 ASCII bytes followed by a three-byte character, byte
offset 2048 is a UTF-8 continuation byte, so the slice
`&text[..min(len, 2048)]` in `extract_schema_url` is not at a character
boundary and the Rust function panics instead of returning a value. -/
theorem c10_extract_schema_url_panics :
    (strBytes c10Text).length = 2050 ∧
    (strBytes c10Text).get? 2048 = some 130 ∧
    extractSchemaUrl (strBytes c10Text) = .error () := by
  refine ⟨c10_len, c10_get, ?_⟩
  apply extract_panics_of
  have hmin : min (strBytes c10Text).length 2048 = 2048 := by
    rw [c10_len]
    rfl
  rw [hmin]
  exact c10_boundary

/-- Removing one url from the failure map does not affect lookups of a
different url. -/
theorem lookupErr_removeErr_ne (errors : List (String × Nat)) (u u2 : String)
    (h : u ≠ u2) : lookupErr (removeErr errors u2) u = lookupErr errors u := by
  induction errors with
  | nil => rfl
  | cons p rest ih =>
    by_cases hp : p.1 = u2
    · have hb : (p.1 == u2) = true := by simpa using hp
      have hpu : (p.1 == u) = false := by
        simp only [beq_eq_false_iff_ne]
        rw [hp]
        exact fun he => h he.symm
      simp only [removeErr, List.filter_cons, hb, Bool.not_true, if_false,
        lookupErr, List.find?_cons, hpu] at *
      exact ih
    · have hb : (p.1 == u2) = false := by simpa using hp
      by_cases hu : p.1 = u
      · have hbu : (p.1 == u) = true := by simpa using hu
        simp [removeErr, List.filter_cons, hb, lookupErr, List.find?_cons, hbu]
      · have hbu : (p.1 == u) = false := by simpa using hu
        simp only [removeErr, List.filter_cons, hb, Bool.not_false, if_true,
          lookupErr, List.find?_cons, hbu] at *
        exact ih

/-- `fetch_step` never writes the shared failure map: the success branch
only touches the positive cache, and the failure branch inserts into the
dropped deep copy of the map. -/
theorem fetchStep_errors_unchanged (loader : String → Option Json)
    (s : CacheState) (url : String) (now : Nat) :
    (fetchStep loader s url now).1.errors = s.errors := by
  unfold fetchStep
  split
  · rfl
  · split <;> rfl

/-- With an active failure record, `get_or_fetch` would return the
cooldown error immediately (no loader call, no state change) — but no
code path ever adds such a record, so this branch is dead. -/
theorem getOrFetch_cooldown {loader : String → Option Json} {s : CacheState}
    {u : String} {t now : Nat}
    (h : lookupErr s.errors u = some t) (hlt : now - t < 60) :
    getOrFetch loader s u now = (s, .cooldown, false) := by
  unfold getOrFetch
  rw [h]
  simp [hlt]

/-- Witness for `getOrFetch_cooldown` at a handmade state carrying a
failure record (which the code itself never produces). -/
theorem getOrFetch_cooldown_witness :
    lookupErr [("u", 5)] "u" = some 5 ∧ (20 : Nat) - 5 < 60 ∧
    getOrFetch c2Loader
        { entries := [], errors := [("u", 5)], ttl := 28800, capacity := 128 }
        "u" 20
      = ({ entries := [], errors := [("u", 5)], ttl := 28800, capacity := 128 },
         .cooldown, false) :=
  ⟨by decide, by decide,
    @getOrFetch_cooldown c2Loader
      { entries := [], errors := [("u", 5)], ttl := 28800, capacity := 128 }
      "u" 5 20 (by decide) (by decide)⟩

/-- C2: refuted on the code.  `get_or_fetch` captures
`self.errors.clone()` — a deep `DashMap` copy, not a shared handle —
inside the loading future, so the failure timestamp of a failed load is
recorded only in that dropped copy.  Concretely: with a fresh
default-configured cache and a failing loader, the load of `"u"` at time
0 fails, invokes the loader, and leaves the shared failure map empty; the
next call for `"u"` at time 5 — inside the claimed 60-second cooldown
window — invokes the loader again and fails again, instead of returning
the cooldown error without a load. -/
theorem c2_failed_load_not_recorded_loader_reinvoked :
    (getOrFetch c2Loader c2S0 "u" 0).2.1 = .loadFailed ∧
    (getOrFetch c2Loader c2S0 "u" 0).2.2 = true ∧
    (getOrFetch c2Loader c2S0 "u" 0).1.errors = [] ∧
    (getOrFetch c2Loader (getOrFetch c2Loader c2S0 "u" 0).1 "u" 5).2.2 = true ∧
    (getOrFetch c2Loader (getOrFetch c2Loader c2S0 "u" 0).1 "u" 5).2.1
      = .loadFailed :=
  ⟨rfl, rfl, rfl, rfl, rfl⟩

/-- C8: refuted on the code (the spec options table is the intent).  With
initialization options requesting TTL 7 and capacity 5, the parsed config
does carry 7 and 5, but the backend — and with it the schema cache built
in `Backend::new` from `ServerConfig::default()` — is unchanged by
`initialize`, which only logs the parsed config: the cache keeps the
defaults 28800 and 128. -/
theorem c8_initialize_does_not_apply_options :
    (ServerConfig.fromValue c8Opts).schemaTtlSecs = 7 ∧
    (ServerConfig.fromValue c8Opts).schemaCacheCapacity = 5 ∧
    ( Backend.initialize Backend.new (some c8Opts)).1.schemaCache.ttl = 28800 ∧
    ( Backend.initialize Backend.new (some c8Opts)).1.schemaCache.capacity = 128 ∧
    ( Backend.initialize Backend.new (some c8Opts)).1 = Backend.new :=
  ⟨rfl, rfl, rfl, rfl, rfl⟩

theorem getOfDrop {bs : List Nat} {pos b : Nat} {rest : List Nat}
    (h : bs.drop pos = b :: rest) : bs.get? pos = some b := by
  rw [List.get?_eq_getElem?, ← List.head?_drop, h]
  rfl

theorem dropSucc {bs : List Nat} {pos b : Nat} {rest : List Nat}
    (h : bs.drop pos = b :: rest) : bs.drop (pos + 1) = rest := by
  rw [← List.drop_drop, h]
  rfl

theorem dropAdd (bs : List Nat) (pos n : Nat) :
    bs.drop (pos + n) = (bs.drop pos).drop n :=
  (List.drop_drop n pos bs).symm

theorem posLtOfDrop {bs : List Nat} {pos b : Nat} {rest : List Nat}
    (h : bs.drop pos = b :: rest) : pos < bs.length := by
  by_contra hge
  rw [List.drop_eq_nil_of_le (by omega)] at h
  cases h

theorem ascii_charUtf8 {c : Char} (h : c.toNat < 128) : charUtf8 c = [c.toNat] := by
  unfold charUtf8
  rw [if_pos h]

theorem ascii_utf8Len {c : Char} (h : c.toNat < 128) : utf8Len c = 1 := by
  unfold utf8Len
  rw [ascii_charUtf8 h]
  rfl

theorem ascii_utf16Len {c : Char} (h : c.toNat < 128) : utf16Len c = 1 := by
  unfold utf16Len
  rw [if_pos (by omega)]

theorem flatMap_ascii :
    ∀ cs : List Char, (∀ c ∈ cs, c.toNat < 128) →
      cs.flatMap charUtf8 = cs.map Char.toNat := by
  intro cs
  induction cs with
  | nil => intro _; rfl
  | cons c rest ih =>
    intro h
    rw [List.flatMap_cons, List.map_cons,
      ascii_charUtf8 (h c (List.mem_cons_self _ _)),
      ih (fun x hx => h x (List.mem_cons_of_mem _ hx))]
    rfl

theorem utf16_ascii :
    ∀ cs : List Char, (∀ c ∈ cs, c.toNat < 128) →
      ∀ off count j, utf16ToByteAux cs off count j
        = off + min (j - count) cs.length := by
  intro cs
  induction cs with
  | nil => intro _ off count j; simp [utf16ToByteAux]
  | cons c rest ih =>
    intro h off count j
    have hc := h c (List.mem_cons_self _ _)
    unfold utf16ToByteAux
    by_cases hj : j ≤ count
    · rw [if_pos hj]
      have h0 : j - count = 0 := by omega
      simp [h0]
    · rw [if_neg hj, ascii_utf8Len hc, ascii_utf16Len hc,
        ih (fun x hx => h x (List.mem_cons_of_mem _ hx)) (off + 1) (count + 1) j]
      simp only [List.length_cons]
      omega

theorem skipWs_noWs {bs : List Nat} {pos b : Nat} {rest : List Nat}
    (h : bs.drop pos = b :: rest) (hb : isWsByte b = false) :
    skipWs bs pos = pos := by
  unfold skipWs
  rw [h]
  unfold skipWsAux
  rw [hb]
  rfl

theorem scanStringAux_plain :
    ∀ (kb rest2 : List Nat) (pos : Nat) (acc : List Char),
      (∀ b ∈ kb, b ≠ 34 ∧ b ≠ 92) →
      scanStringAux (kb ++ 34 :: rest2) pos acc
        = (acc ++ kb.map Char.ofNat, pos + kb.length + 1) := by
  intro kb
  induction kb with
  | nil =>
    intro rest2 pos acc _
    show scanStringAux (34 :: rest2) pos acc = _
    unfold scanStringAux
    rw [if_pos rfl]
    simp
  | cons b kt ih =>
    intro rest2 pos acc h
    have hb := h b (List.mem_cons_self _ _)
    show scanStringAux (b :: (kt ++ 34 :: rest2)) pos acc = _
    unfold scanStringAux
    rw [if_neg hb.1, if_neg hb.2,
      ih rest2 (pos + 1) (acc ++ [Char.ofNat b])
        (fun x hx => h x (List.mem_cons_of_mem _ hx))]
    refine Prod.ext ?_ ?_
    · simp
    · simp only [List.length_cons]
      omega

theorem scanString_plain {bs : List Nat} {pos : Nat} {kb rest2 : List Nat}
    (h : bs.drop pos = 34 :: kb ++ 34 :: rest2)
    (hp : ∀ b ∈ kb, b ≠ 34 ∧ b ≠ 92) :
    scanString bs pos = (kb.map Char.ofNat, pos + kb.length + 2) := by
  unfold scanString
  rw [h]
  show (if (34 : Nat) = 34 then scanStringAux (kb ++ 34 :: rest2) (pos + 1) []
        else ([], pos)) = _
  rw [if_pos rfl, scanStringAux_plain kb rest2 (pos + 1) [] hp]
  refine Prod.ext ?_ ?_
  · simp
  · simp only
    omega

theorem skipLiteralAux_digits :
    ∀ (vb restB : List Nat) (pos : Nat),
      (∀ b ∈ vb, isLitTerm b = false) →
      (match restB with
       | [] => True
       | b :: _ => isLitTerm b = true) →
      skipLiteralAux (vb ++ restB) pos = pos + vb.length := by
  intro vb
  induction vb with
  | nil =>
    intro restB pos _ hrest
    cases restB with
    | nil => simp [skipLiteralAux]
    | cons b r =>
      simp only at hrest
      simp [skipLiteralAux, hrest]
  | cons b vt ih =>
    intro restB pos h hrest
    have hb := h b (List.mem_cons_self _ _)
    show skipLiteralAux (b :: (vt ++ restB)) pos = _
    unfold skipLiteralAux
    rw [hb]
    simp only [Bool.false_eq_true, if_false,
      ih restB (pos + 1) (fun x hx => h x (List.mem_cons_of_mem _ hx)) hrest,
      List.length_cons]
    omega

theorem drop_head2 :
    ∀ (l X : List Nat) (a b : Nat),
      (a :: (l ++ b :: X)).drop (l.length + 2) = X := by
  intro l
  induction l with
  | nil => intro X a b; rfl
  | cons c ct ih =>
    intro X a b
    show (a :: c :: (ct ++ b :: X)).drop (ct.length + 1 + 2) = X
    have he : ct.length + 1 + 2 = (ct.length + 2) + 1 := by omega
    rw [he, List.drop_succ_cons]
    exact ih X c b

theorem digit_not_litTerm {b : Nat} (h1 : 48 ≤ b) (h2 : b ≤ 57) :
    isLitTerm b = false := by
  simp only [isLitTerm, isWsByte, Bool.or_eq_false_iff, decide_eq_false_iff_not]
  omega

theorem digit_not_ws {b : Nat} (h1 : 48 ≤ b) (h2 : b ≤ 57) :
    isWsByte b = false := by
  simp only [isWsByte, Bool.or_eq_false_iff, decide_eq_false_iff_not]
  omega

/-- Evaluation of one iteration of the object-scanning loop over a flat
member `"key":val` at `pos`, classifying every offset of the member and
otherwise advancing to the byte after the value. -/
theorem scanObjLoop_flat_step
    (bs : List Nat) (f pos target : Nat) (kb vb restB : List Nat)
    (hkb : ∀ b ∈ kb, 97 ≤ b ∧ b ≤ 122)
    (hvb0 : vb ≠ []) (hvb : ∀ b ∈ vb, 48 ≤ b ∧ b ≤ 57)
    (hrB : match restB with | [] => False | b :: _ => b = 44 ∨ b = 125)
    (hdrop : bs.drop pos = 34 :: (kb ++ 34 :: 58 :: (vb ++ restB))) :
    scanObjLoop bs (f + 2) pos [] target =
      if target = pos then .ok (some (.keyStart []), pos)
      else if pos < target ∧ target ≤ pos + kb.length + 2 then
        .ok (some (.key [.key (String.mk (kb.map Char.ofNat))]),
          pos + kb.length + 2)
      else if pos < target ∧ target ≤ pos + kb.length + 3 then
        .ok (some (.valueStart [.key (String.mk (kb.map Char.ofNat))]),
          pos + kb.length + 3)
      else if pos + kb.length + 3 ≤ target ∧
          target ≤ pos + kb.length + 3 + vb.length then
        .ok (some (.value [.key (String.mk (kb.map Char.ofNat))]),
          pos + kb.length + 3 + vb.length)
      else scanObjLoop bs (f + 1) (pos + kb.length + 3 + vb.length) [] target := by
  have hk34 : ∀ b ∈ kb, b ≠ 34 ∧ b ≠ 92 := fun b hb =>
    ⟨by have := hkb b hb; omega, by have := hkb b hb; omega⟩
  have h34 : bs.get? pos = some 34 := getOfDrop hdrop
  have hskip0 : skipWs bs pos = pos := skipWs_noWs hdrop (by rfl)
  have hscan : scanString bs pos = (kb.map Char.ofNat, pos + kb.length + 2) :=
    scanString_plain hdrop hk34
  have hp1d : bs.drop (pos + kb.length + 2) = 58 :: vb ++ restB := by
    have h2 := dropAdd bs pos (kb.length + 2)
    rw [hdrop, drop_head2] at h2
    have he : pos + (kb.length + 2) = pos + kb.length + 2 := by omega
    rw [he] at h2
    exact h2
  have hskip1 : skipWs bs (pos + kb.length + 2) = pos + kb.length + 2 :=
    skipWs_noWs hp1d (by rfl)
  have hget58 : bs.get? (pos + kb.length + 2) = some 58 := getOfDrop hp1d
  have hp3d : bs.drop (pos + kb.length + 2 + 1) = vb ++ restB := dropSucc hp1d
  obtain ⟨vh, vt, hveq⟩ : ∃ vh vt, vb = vh :: vt := by
    cases vb with
    | nil => exact absurd rfl hvb0
    | cons vh vt => exact ⟨vh, vt, rfl⟩
  have hvh := hvb vh (by rw [hveq]; exact List.mem_cons_self _ _)
  have hp3dc : bs.drop (pos + kb.length + 2 + 1) = vh :: (vt ++ restB) := by
    rw [hp3d, hveq]
    rfl
  have hskip3 : skipWs bs (pos + kb.length + 2 + 1) = pos + kb.length + 2 + 1 :=
    skipWs_noWs hp3dc (digit_not_ws hvh.1 hvh.2)
  have hp3lt : pos + kb.length + 2 + 1 < bs.length := posLtOfDrop hp3dc
  have hgetv : bs.get? (pos + kb.length + 2 + 1) = some vh := getOfDrop hp3dc
  have hlit : skipLiteral bs (pos + kb.length + 2 + 1)
      = pos + kb.length + 2 + 1 + vb.length := by
    unfold skipLiteral
    rw [hp3d, skipLiteralAux_digits vb restB (pos + kb.length + 2 + 1)
      (fun b hb => digit_not_litTerm (hvb b hb).1 (hvb b hb).2)
      (by cases restB with
          | nil => simp at hrB
          | cons b r =>
            simp only
            simp only at hrB
            rcases hrB with h44 | h125 <;> subst_vars <;> rfl)]
  have hv123 : ¬ vh = 123 := by omega
  have hv91 : ¬ vh = 91 := by omega
  have hv34 : ¬ vh = 34 := by omega
  have h34g : bs[pos]? = some 34 := by
    rw [← List.get?_eq_getElem?]; exact h34
  have hget58g : bs[pos + kb.length + 2]? = some 58 := by
    rw [← List.get?_eq_getElem?]; exact hget58
  have hgetvg : bs[pos + kb.length + 2 + 1]? = some vh := by
    rw [← List.get?_eq_getElem?]; exact hgetv
  -- now evaluate the loop body, case by case on where the target lies
  split_ifs with h1 h2 h3 h4
  · subst h1
    conv_lhs => rw [scanObjLoop]
    simp [hskip0, h34g]
  · conv_lhs => rw [scanObjLoop]
    simp only [hskip0, h34, h34g, hscan, reduceIte, h1, hskip1, hget58, hget58g,
      hskip3, List.nil_append, h2, if_true, if_false, true_and, and_true,
      and_self, false_and, and_false]
    norm_num
  · have h3L : pos < target ∧ target ≤ pos + kb.length + 2 + 1 :=
      ⟨h3.1, by omega⟩
    conv_lhs => rw [scanObjLoop]
    simp only [hskip0, h34, h34g, hscan, reduceIte, h1, hskip1, hget58, hget58g,
      hskip3, List.nil_append, h2, hp3lt, h3L, if_true, if_false, true_and,
      and_true, and_self, false_and, and_false]
    have he : pos + kb.length + 2 + 1 = pos + kb.length + 3 := by omega
    rw [he]
    norm_num
    omega
  · have h3L : ¬ (pos < target ∧ target ≤ pos + kb.length + 2 + 1) := by omega
    have h4L : pos + kb.length + 2 + 1 ≤ target ∧
        target ≤ pos + kb.length + 2 + 1 + vb.length := by omega
    conv_lhs => rw [scanObjLoop]
    simp only [hskip0, h34, h34g, hscan, reduceIte, h1, hskip1, hget58, hget58g,
      hskip3, List.nil_append, h2, hp3lt, h3L, if_true, if_false, true_and,
      and_true, and_self, false_and, and_false]
    conv_lhs => rw [scanValue]
    simp only [hgetv, hgetvg, hlit, reduceIte, hv123, hv91, hv34, h4L, if_true,
      if_false, true_and, and_true, and_self, false_and, and_false]
    have he : pos + kb.length + 2 + 1 + vb.length
        = pos + kb.length + 3 + vb.length := by omega
    rw [he]
    norm_num
  · have h3L : ¬ (pos < target ∧ target ≤ pos + kb.length + 2 + 1) := by omega
    have h4L : ¬ (pos + kb.length + 2 + 1 ≤ target ∧
        target ≤ pos + kb.length + 2 + 1 + vb.length) := by omega
    conv_lhs => rw [scanObjLoop]
    simp only [hskip0, h34, h34g, hscan, reduceIte, h1, hskip1, hget58, hget58g,
      hskip3, List.nil_append, h2, hp3lt, h3L, if_true, if_false, true_and,
      and_true, and_self, false_and, and_false]
    conv_lhs => rw [scanValue]
    simp only [hgetv, hgetvg, hlit, reduceIte, hv123, hv91, hv34, h4L, if_true,
      if_false, true_and, and_true, and_self, false_and, and_false]
    have he : pos + kb.length + 2 + 1 + vb.length
        = pos + kb.length + 3 + vb.length := by omega
    rw [he]
    norm_num

/-- Evaluating the object-member loop at a comma consumes the comma and
one unit of fuel. -/
theorem scanObjLoop_comma_step (bs : List Nat) (g pos target : Nat)
    (rest : List Nat) (hdrop : bs.drop pos = 44 :: rest) :
    scanObjLoop bs (g + 1) pos [] target
      = scanObjLoop bs g (pos + 1) [] target := by
  have hskip : skipWs bs pos = pos := skipWs_noWs hdrop (by rfl)
  have h44 : bs.get? pos = some 44 := getOfDrop hdrop
  have h44g : bs[pos]? = some 44 := by
    rw [← List.get?_eq_getElem?]; exact h44
  conv_lhs => rw [scanObjLoop]
  simp only [hskip, h44, h44g, reduceIte]
  norm_num

/-- Dropping one member of the rendered body from the byte stream. -/
theorem drop_after_pair {bs : List Nat} {pos : Nat} {kb vb restB : List Nat}
    (hdrop : bs.drop pos = 34 :: (kb ++ 34 :: 58 :: (vb ++ restB))) :
    bs.drop (pos + kb.length + 3 + vb.length) = restB := by
  have hc1 : bs.drop (pos + kb.length + 2) = 58 :: (vb ++ restB) := by
    have h2 := dropAdd bs pos (kb.length + 2)
    rw [hdrop, drop_head2] at h2
    have he : pos + (kb.length + 2) = pos + kb.length + 2 := by omega
    rw [he] at h2
    exact h2
  have hc2 : bs.drop (pos + kb.length + 2 + 1) = vb ++ restB := dropSucc hc1
  have hc3 := dropAdd bs (pos + kb.length + 2 + 1) vb.length
  rw [hc2, List.drop_left] at hc3
  have he : pos + kb.length + 2 + 1 + vb.length
      = pos + kb.length + 3 + vb.length := by omega
  rw [he] at hc3
  exact hc3

/-- Every position strictly after the opening brace and at most the
closing brace of a flat rendered object body is classified (the scanner
returns `some` context), provided the fuel covers two units per member. -/
theorem scanPairs_classified (ps : List FlatPair) (f : Nat) (bs : List Nat)
    (pos target : Nat) (hw : ∀ p ∈ ps, wfPair p) (hne : ps ≠ [])
    (hdrop : bs.drop pos = bodyBytes ps ++ [125])
    (hlo : pos ≤ target) (hhi : target ≤ pos + (bodyBytes ps).length) :
    ∃ c q, scanObjLoop bs (f + 2 * ps.length) pos [] target
      = .ok (some c, q) := by
  induction ps generalizing pos target with
  | nil => exact absurd rfl hne
  | cons p rest ih =>
    have hwp : wfPair p := hw p (List.mem_cons_self _ _)
    have hkb : ∀ b ∈ p.key.map Char.toNat, 97 ≤ b ∧ b ≤ 122 := by
      intro b hb
      obtain ⟨c, hc, rfl⟩ := List.mem_map.mp hb
      exact hwp.2.1 c hc
    have hvb0 : p.val.map Char.toNat ≠ [] := by
      intro h
      exact hwp.2.2.1 (List.map_eq_nil_iff.mp h)
    have hvb : ∀ b ∈ p.val.map Char.toNat, 48 ≤ b ∧ b ≤ 57 := by
      intro b hb
      obtain ⟨c, hc, rfl⟩ := List.mem_map.mp hb
      exact hwp.2.2.2 c hc
    cases rest with
    | nil =>
      have hdrop' : bs.drop pos
          = 34 :: (p.key.map Char.toNat
              ++ 34 :: 58 :: (p.val.map Char.toNat ++ [125])) := by
        rw [hdrop]
        simp [bodyBytes, pairBytes, List.cons_append, List.append_assoc]
      have hfe : f + 2 * ([p] : List FlatPair).length = f + 2 := by simp
      have hlen : (bodyBytes [p]).length
          = (p.key.map Char.toNat).length + (p.val.map Char.toNat).length + 3 := by
        simp only [bodyBytes, pairBytes, List.length_cons, List.length_append,
          List.length_map]
        omega
      rw [hfe, scanObjLoop_flat_step bs f pos target _ _ [125] hkb hvb0 hvb
        (Or.inr rfl) hdrop']
      split_ifs with h1 h2 h3 h4
      · exact ⟨_, _, rfl⟩
      · exact ⟨_, _, rfl⟩
      · exact ⟨_, _, rfl⟩
      · exact ⟨_, _, rfl⟩
      · exfalso
        rw [hlen] at hhi
        omega
    | cons r rs =>
      have hbody : bodyBytes (p :: r :: rs)
          = pairBytes p ++ 44 :: bodyBytes (r :: rs) := rfl
      have hdrop' : bs.drop pos
          = 34 :: (p.key.map Char.toNat
              ++ 34 :: 58 :: (p.val.map Char.toNat
                ++ (44 :: (bodyBytes (r :: rs) ++ [125])))) := by
        rw [hdrop, hbody]
        simp [pairBytes, List.cons_append, List.append_assoc]
      have hfe : f + 2 * ((p :: r :: rs) : List FlatPair).length
          = (f + 2 * ((r :: rs) : List FlatPair).length) + 2 := by
        simp only [List.length_cons]
        ring
      have hlen : (bodyBytes (p :: r :: rs)).length
          = (p.key.map Char.toNat).length + (p.val.map Char.toNat).length + 4
            + (bodyBytes (r :: rs)).length := by
        rw [hbody]
        simp only [pairBytes, List.length_cons, List.length_append,
          List.length_map]
        omega
      rw [hfe, scanObjLoop_flat_step bs (f + 2 * ((r :: rs) : List FlatPair).length)
        pos target _ _ (44 :: (bodyBytes (r :: rs) ++ [125])) hkb hvb0 hvb
        (Or.inl rfl) hdrop']
      split_ifs with h1 h2 h3 h4
      · exact ⟨_, _, rfl⟩
      · exact ⟨_, _, rfl⟩
      · exact ⟨_, _, rfl⟩
      · exact ⟨_, _, rfl⟩
      · have hcomma : bs.drop (pos + (p.key.map Char.toNat).length + 3
            + (p.val.map Char.toNat).length)
            = 44 :: (bodyBytes (r :: rs) ++ [125]) := drop_after_pair hdrop'
        rw [scanObjLoop_comma_step bs _ _ target _ hcomma]
        have hdrop'' : bs.drop (pos + (p.key.map Char.toNat).length + 3
            + (p.val.map Char.toNat).length + 1)
            = bodyBytes (r :: rs) ++ [125] := dropSucc hcomma
        have hw' : ∀ q ∈ r :: rs, wfPair q := fun q hq =>
          hw q (List.mem_cons_of_mem _ hq)
        have hlo' : pos + (p.key.map Char.toNat).length + 3
            + (p.val.map Char.toNat).length + 1 ≤ target := by omega
        have hhi' : target ≤ pos + (p.key.map Char.toNat).length + 3
            + (p.val.map Char.toNat).length + 1
            + (bodyBytes (r :: rs)).length := by
          rw [hlen] at hhi
          omega
        obtain ⟨c, q, hq⟩ := ih _ target hw' (List.cons_ne_nil r rs) hdrop'' hlo' hhi'
        exact ⟨c, q, hq⟩


/-- The bytes of one rendered member are the character codes of its
characters. -/
theorem pairChars_map (p : FlatPair) :
    (pairChars p).map Char.toNat = pairBytes p := by
  simp [pairChars, pairBytes]

/-- The body bytes are the character codes of the body characters. -/
theorem bodyChars_map : ∀ ps : List FlatPair,
    (bodyChars ps).map Char.toNat = bodyBytes ps := by
  intro ps
  induction ps with
  | nil => rfl
  | cons p rest ih =>
    cases rest with
    | nil => exact pairChars_map p
    | cons r rs =>
      show (pairChars p ++ ',' :: bodyChars (r :: rs)).map Char.toNat
        = pairBytes p ++ 44 :: bodyBytes (r :: rs)
      rw [List.map_append, pairChars_map, List.map_cons, ih]
      rfl

/-- Every character of a well-formed rendered member is ASCII. -/
theorem pairChars_ascii {p : FlatPair} (hp : wfPair p) :
    ∀ c ∈ pairChars p, c.toNat < 128 := by
  intro c hc
  unfold pairChars at hc
  rcases List.mem_cons.mp hc with h | h
  · subst h; decide
  rcases List.mem_append.mp h with h | h
  · have := hp.2.1 c h; omega
  rcases List.mem_cons.mp h with h | h
  · subst h; decide
  rcases List.mem_cons.mp h with h | h
  · subst h; decide
  · have := hp.2.2.2 c h; omega

/-- Every character of a well-formed rendered body is ASCII. -/
theorem bodyChars_ascii : ∀ ps : List FlatPair, (∀ p ∈ ps, wfPair p) →
    ∀ c ∈ bodyChars ps, c.toNat < 128 := by
  intro ps
  induction ps with
  | nil => intro _ c hc; cases hc
  | cons p rest ih =>
    intro hw c hc
    have hwp : wfPair p := hw p (List.mem_cons_self _ _)
    cases rest with
    | nil => exact pairChars_ascii hwp c hc
    | cons r rs =>
      have hsh : bodyChars (p :: r :: rs)
          = pairChars p ++ ',' :: bodyChars (r :: rs) := rfl
      rw [hsh] at hc
      rcases List.mem_append.mp hc with h | h
      · exact pairChars_ascii hwp c h
      rcases List.mem_cons.mp h with h | h
      · subst h; decide
      · exact ih (fun q hq => hw q (List.mem_cons_of_mem _ hq)) c h

/-- Every character of a well-formed rendered document is ASCII. -/
theorem docChars_ascii (ps : List FlatPair) (hw : ∀ p ∈ ps, wfPair p) :
    ∀ c ∈ docChars ps, c.toNat < 128 := by
  intro c hc
  rcases List.mem_cons.mp hc with h | h
  · subst h; decide
  rcases List.mem_append.mp h with h | h
  · exact bodyChars_ascii ps hw c h
  rcases List.mem_cons.mp h with h | h
  · subst h; decide
  · cases h

/-- There are at least as many body bytes as members. -/
theorem psLen_le : ∀ ps : List FlatPair, ps.length ≤ (bodyBytes ps).length := by
  intro ps
  induction ps with
  | nil => exact Nat.le_refl 0
  | cons p rest ih =>
    cases rest with
    | nil =>
      have h : bodyBytes [p] = pairBytes p := rfl
      simp only [List.length_cons, List.length_nil, h, pairBytes,
        List.length_append]
      omega
    | cons r rs =>
      have h : bodyBytes (p :: r :: rs)
          = pairBytes p ++ 44 :: bodyBytes (r :: rs) := rfl
      simp only [List.length_cons, h, pairBytes, List.length_append]
      have := ih
      simp only [List.length_cons] at this
      omega

/-- `dropBytes` at offset zero is the identity. -/
theorem dropBytes_zero : ∀ cs : List Char, dropBytes cs 0 = cs := by
  intro cs
  cases cs <;> rfl

/-- C5: on the rendered document of a nonempty well-formed flat object,
every position strictly inside the braces (and the closing-brace position
itself) maps to a classified (non-`Unknown`) context. -/
theorem c5_flat_object_positions_classified (ps : List FlatPair) (j : Nat)
    (hw : wfPairs ps) (hne : ps ≠ [])
    (hj1 : 1 ≤ j) (hj2 : j + 1 ≤ (docChars ps).length) :
    ∃ c, positionToContext (docString ps) 0 j = .ok (some c) := by
  have hascii : ∀ c ∈ docChars ps, c.toNat < 128 := docChars_ascii ps hw
  have hdata : (docString ps).data = docChars ps := rfl
  have hbytes : strBytes (docString ps) = 123 :: (bodyBytes ps ++ [125]) := by
    unfold strBytes
    rw [hdata, flatMap_ascii _ hascii]
    show ('\x7b' :: (bodyChars ps ++ ['\x7d'])).map Char.toNat = _
    rw [List.map_cons, List.map_append, bodyChars_map]
    rfl
  have hls : lineScan (docChars ps) 0 0 0 = .broke 0 := by
    rw [show docChars ps = '\x7b' :: (bodyChars ps ++ ['\x7d']) from rfl]
    rfl
  have hbodylen : (bodyBytes ps).length = (bodyChars ps).length := by
    rw [← bodyChars_map ps, List.length_map]
  have hdoclen : (docChars ps).length = (bodyBytes ps).length + 2 := by
    show ('\x7b' :: (bodyChars ps ++ ['\x7d'])).length = _
    rw [List.length_cons, List.length_append, hbodylen]
    rfl
  have hoff : lspPositionToByteOffset (docString ps) 0 j = some j := by
    unfold lspPositionToByteOffset
    rw [hdata, hls]
    show some (0 + utf16ToByteAux (dropBytes (docChars ps) 0) 0 0 j) = some j
    rw [dropBytes_zero, utf16_ascii _ hascii]
    have he : 0 + min (j - 0) (docChars ps).length = j := by omega
    rw [he]
    simp only [Nat.zero_add]
  have hdrop0 : (strBytes (docString ps)).drop 0
      = 123 :: (bodyBytes ps ++ [125]) := by
    rw [List.drop_zero, hbytes]
  have hskip : skipWs (strBytes (docString ps)) 0 = 0 :=
    skipWs_noWs hdrop0 (by rfl)
  have hget : (strBytes (docString ps)).get? 0 = some 123 := getOfDrop hdrop0
  have hdrop1 : (strBytes (docString ps)).drop 1 = bodyBytes ps ++ [125] := by
    have h := dropSucc hdrop0
    simpa using h
  have hfuel : scanFuel (strBytes (docString ps))
      = (scanFuel (strBytes (docString ps)) - 2 * ps.length) + 2 * ps.length := by
    have h1 : ps.length ≤ (bodyBytes ps).length := psLen_le ps
    have h2 : (strBytes (docString ps)).length = (bodyBytes ps).length + 2 := by
      rw [hbytes, List.length_cons, List.length_append]
      rfl
    unfold scanFuel
    omega
  obtain ⟨c, q, hq⟩ := scanPairs_classified ps
    (scanFuel (strBytes (docString ps)) - 2 * ps.length)
    (strBytes (docString ps)) 1 j hw hne hdrop1 hj1 (by omega)
  refine ⟨c, ?_⟩
  unfold positionToContext
  rw [hoff]
  dsimp only
  rw [hskip, hget]
  dsimp only
  rw [if_pos rfl]
  rw [show (0 : Nat) + 1 = 1 from rfl, hfuel, hq]


/-- Concrete instance of the C5 theorem: in the document `\x7b"a":1\x7d`
position (0,3) — the closing quote of the key — is classified. -/
theorem c5_flat_object_positions_classified_witness :
    wfPairs [(⟨['a'], ['1']⟩ : FlatPair)]
      ∧ ([(⟨['a'], ['1']⟩ : FlatPair)] : List FlatPair) ≠ []
      ∧ 1 ≤ 3
      ∧ 3 + 1 ≤ (docChars [(⟨['a'], ['1']⟩ : FlatPair)]).length
      ∧ ∃ c, positionToContext
          (docString [(⟨['a'], ['1']⟩ : FlatPair)]) 0 3 = .ok (some c) :=
  ⟨by decide, by decide, by decide, by decide,
    c5_flat_object_positions_classified [⟨['a'], ['1']⟩] 3
      (by decide) (by decide) (by decide) (by decide)⟩

end JsonLs
